import Mathlib

/-!
Verification of the workflow reference-tag engine of the `sim` repository.

The definitions below are a shallow embedding of the TypeScript source:

* `apps/sim/lib/auth-client.ts` — the `TagDropdown` module: `checkTagTrigger`,
  `normalizeBlockName`, `ensureRootTag`, `generateOutputPaths`,
  `generateOutputPathsWithTypes`, `generateToolOutputPaths`, the BFS distance
  computation, the accessible-block tag-group construction, the nested
  grouping / flat ordering of tags, and the `handleTagSelect` insertion logic.
* `apps/sim/app/workspace/.../hooks/use-block-connections.ts` —
  `parseResponseFormatSafely` and `extractFieldsFromSchema`.

JavaScript dynamic values are modelled by the inductive type `JSVal`.
JavaScript strings are modelled by Lean `String`, with the string operations
used by the source reimplemented over `String.data` (lists of characters) so
that they compute by kernel reduction.  Store lookups and the modules that are
not part of the visible source (`@/blocks`, `@/tools/utils`,
`@/lib/workflows/block-outputs`, the live sub-block store) are abstracted as
explicit function-valued parameters collected in `Env`.
-/

namespace Sim

/-- Model of a JavaScript runtime value, as far as the tag engine inspects
values: `undefined`, `null`, booleans, numbers, strings, arrays and plain
objects (ordered string-keyed field lists, mirroring `Object.entries`). -/
inductive JSVal where
  | vundefined
  | vnull
  | vbool (b : Bool)
  | vnum (n : Int)
  | vstr (s : String)
  | varr (xs : List JSVal)
  | vobj (fields : List (String × JSVal))

/-- JavaScript truthiness: `undefined`, `null`, `false`, `0` and `''` are
falsy; every array and object is truthy. -/
def truthy : JSVal → Bool
  | .vundefined => false
  | .vnull => false
  | .vbool b => b
  | .vnum n => n != 0
  | .vstr s => s ≠ ""
  | .varr _ => true
  | .vobj _ => true

/-- `null`/`undefined` (the values treated specially by `??` and `?.`). -/
def isNullish : JSVal → Bool
  | .vundefined => true
  | .vnull => true
  | _ => false

/-- First-match association-list lookup, modelling property access on a plain
object (JS object keys are unique, so first match is the match). -/
def lookupField : List (String × JSVal) → String → Option JSVal
  | [], _ => none
  | (k, v) :: rest, key => if k = key then some v else lookupField rest key

/-- Optional-chained property access `v?.key`: `none` when `v` is not a plain
object or lacks the key. -/
def getField : JSVal → String → Option JSVal
  | .vobj fs, key => lookupField fs key
  | _, _ => none

/-- Property access returning `undefined` when absent, as in JavaScript. -/
def getFieldD (v : JSVal) (key : String) : JSVal :=
  (getField v key).getD .vundefined

/-- `Object.entries` as used by the output-path generators.  The source only
ever enumerates plain objects here; non-objects are modelled as having no
enumerable string-keyed entries. -/
def entriesOf : JSVal → List (String × JSVal)
  | .vobj fs => fs
  | _ => []

/-! ### JavaScript string operations (kernel-computable re-implementations) -/

/-- `s.replace(/\s+/g, '').toLowerCase()` — the source's `normalizeBlockName`. -/
def normalizeBlockName (blockName : String) : String :=
  ⟨(blockName.data.filter (fun c => !c.isWhitespace)).map Char.toLower⟩

/-- `s.replace(/\s+/g, '')` — the source's `normalizeVariableName`. -/
def normalizeVariableName (variableName : String) : String :=
  ⟨variableName.data.filter (fun c => !c.isWhitespace)⟩

/-- `s.trim()`. -/
def jsTrim (s : String) : String :=
  ⟨((s.data.dropWhile Char.isWhitespace).reverse.dropWhile Char.isWhitespace).reverse⟩

/-- `s.startsWith(p)`. -/
def jsStartsWith (s p : String) : Bool :=
  List.isPrefixOf p.data s.data

/-- `s.includes(c)` for a single character. -/
def strContainsChar (s : String) (c : Char) : Bool :=
  s.data.contains c

/-- `s.toLowerCase()` (ASCII, which is all the source feeds it). -/
def jsToLower (s : String) : String :=
  ⟨s.data.map Char.toLower⟩

/-- Split a character list at every occurrence of `sep` (empty segments kept),
accumulator-style. -/
def splitCharAux (sep : Char) : List Char → List Char → List String
  | [], acc => [⟨acc.reverse⟩]
  | c :: rest, acc =>
    if c = sep then ⟨acc.reverse⟩ :: splitCharAux sep rest []
    else splitCharAux sep rest (c :: acc)

/-- `s.split('.')` — JavaScript single-character split with empty segments. -/
def splitDot (s : String) : List String :=
  splitCharAux '.' s.data []

/-- `parts.join('.')`. -/
def joinWithDot : List String → String
  | [] => ""
  | [s] => s
  | s :: rest => s ++ "." ++ joinWithDot rest

/-- `prefix ? prefix + '.' + key : key` — the dotted-path builder used by the
output-path generators. -/
def dotPath (pre key : String) : String :=
  if pre = "" then key else pre ++ "." ++ key

/-! ### `parseResponseFormatSafely` (use-block-connections.ts, lines 34–61)

`JSON.parse` (with its `try`/`catch`) is abstracted as a function
`jsonParse : String → Option JSVal`, `none` standing for a parse error. -/

/-- Shallow embedding of `parseResponseFormatSafely`.  Returns `JSVal.vundefined`
for `undefined` results. -/
def parseResponseFormatSafely (jsonParse : String → Option JSVal) (value : JSVal) : JSVal :=
  if truthy value = false then .vundefined
  else
    match value with
    | .vobj fs => .vobj fs
    | .varr xs => .varr xs
    | .vstr s =>
      let trimmedValue := jsTrim s
      if jsStartsWith trimmedValue "<" && strContainsChar trimmedValue '>' then
        .vstr trimmedValue
      else if trimmedValue = "" then .vundefined
      else
        match jsonParse trimmedValue with
        | some r => r
        | none => .vundefined
    | _ => .vundefined

/-! ### `extractFieldsFromSchema` (use-block-connections.ts, lines 64–86)

The source returns `Field` records `{name, type, description}`; the tag engine
only uses `field.name`, which for a raw legacy array element is the `name`
property rendered into a template string. -/

/-- Template-literal rendering `${v}` for the values that reach it. -/
def jsTemplateStr : JSVal → String
  | .vundefined => "undefined"
  | .vnull => "null"
  | .vbool b => if b then "true" else "false"
  | .vnum n => toString n
  | .vstr s => s
  | .varr _ => ""
  | .vobj _ => "[object Object]"

/-- Shallow embedding of `extractFieldsFromSchema`, reduced to the field names
(the only part the tag engine consumes).  Mirrors the branch structure:
legacy `fields` array, else `schema.properties` or top-level `properties`. -/
def extractFieldNamesFromSchema (schema : JSVal) : List String :=
  match schema with
  | .vobj fs =>
    match lookupField fs "fields" with
    | some (.varr items) => items.map (fun f => jsTemplateStr (getFieldD f "name"))
    | _ =>
      let schemaObj := match lookupField fs "schema" with
        | some so => if truthy so then so else .vobj fs
        | none => .vobj fs
      match getField schemaObj "properties" with
      | some (.vobj props) => props.map (fun kv => kv.1)
      | _ => []
  | _ => []

/-! ### `checkTagTrigger` (auth-client.ts, lines 105–117) and the textual part
of `handleTagSelect` (lines 1094–1162)

Text is modelled as `List Char`; the cursor is an index into that list. -/

/-- `text.lastIndexOf(c)` restricted to a character list: index of the last
occurrence, `none` for JavaScript's `-1`. -/
def lastIdx : List Char → Char → Option Nat
  | [], _ => none
  | x :: xs, c =>
    match lastIdx xs c with
    | some i => some (i + 1)
    | none => if x = c then some 0 else none

/-- `text.indexOf(c)`: index of the first occurrence, `none` for `-1`. -/
def firstIdx : List Char → Char → Option Nat
  | [], _ => none
  | x :: xs, c => if x = c then some 0 else (firstIdx xs c).map (· + 1)

/-- Shallow embedding of `checkTagTrigger`: show the dropdown iff the text
before the cursor has an unclosed `<` that is not part of a completed tag. -/
def checkTagTrigger (text : List Char) (cursorPosition : Nat) : Bool :=
  if 1 ≤ cursorPosition then
    let textBeforeCursor := text.take cursorPosition
    match lastIdx textBeforeCursor '<', lastIdx textBeforeCursor '>' with
    | some _, none => true
    | some o, some c => decide (c < o)
    | none, _ => false
  else false

/-- The character class of `/^[a-zA-Z0-9._]*$/` in `handleTagSelect`. -/
def validRefChar (c : Char) : Bool :=
  c.isAlpha || c.isDigit || c = '.' || c = '_'

/-- The close-consumption step of `handleTagSelect` (lines 1149–1157): when a
`>` follows the cursor and the text up to it is a valid partial reference,
the remaining text starts after that `>`; otherwise it is unchanged. -/
def consumeAfter (textAfterCursor : List Char) : List Char :=
  match firstIdx textAfterCursor '>' with
  | some nextCloseBracket =>
    if (textAfterCursor.take nextCloseBracket).all validRefChar then
      textAfterCursor.drop (nextCloseBracket + 1)
    else textAfterCursor
  | none => textAfterCursor

/-- The textual splice of `handleTagSelect` (auth-client.ts lines 1094–1162),
taking the already-processed tag: find the last `<` before the cursor (no-op,
`none`, when there is none), optionally consume an already-typed matching `>`
after the cursor when the intervening text is a valid partial reference, and
replace the span with the tag wrapped in `<`/`>`. -/
def insertTag (text : List Char) (cursorPosition : Nat) (processedTag : List Char) :
    Option (List Char) :=
  let textBeforeCursor := text.take cursorPosition
  let textAfterCursor := text.drop cursorPosition
  match lastIdx textBeforeCursor '<' with
  | none => none
  | some lastOpenBracket =>
    some (textBeforeCursor.take lastOpenBracket ++
      '<' :: (processedTag ++ '>' :: consumeAfter textAfterCursor))

/-! ### Output-path generators (auth-client.ts, lines 229–299)

The generators recurse through looked-up sub-objects, which is not a
structural descent; they are therefore driven by explicit fuel, with the
structural size `jsSize` of the input as the canonical (always sufficient —
see the fuel-invariance theorems) fuel. -/

mutual
/-- Structural size of a JS value. -/
def jsSize : JSVal → Nat
  | .vundefined => 1
  | .vnull => 1
  | .vbool _ => 1
  | .vnum _ => 1
  | .vstr _ => 1
  | .varr xs => 1 + jsSizeArr xs
  | .vobj fields => 1 + jsSizeFields fields

/-- Structural size of an object's field list. -/
def jsSizeFields : List (String × JSVal) → Nat
  | [] => 0
  | (_, v) :: rest => 1 + jsSize v + jsSizeFields rest

/-- Structural size of an array's element list. -/
def jsSizeArr : List JSVal → Nat
  | [] => 0
  | v :: rest => 1 + jsSize v + jsSizeArr rest
end

/-- The recursion of `generateOutputPaths`, driven by explicit fuel.  An object
with a string-valued `type` field is a leaf; other objects are legacy nested
declarations and are recursed into.  (`Object.entries` of a non-object yields
nothing in this model; the source never declares outputs as arrays or scalars
other than strings.) -/
def generateOutputPathsF : Nat → List (String × JSVal) → String → List String
  | _, [], _ => []
  | 0, _ :: _, _ => []
  | fuel + 1, (key, value) :: rest, pre =>
    let currentPath := dotPath pre key
    (match value with
     | .vstr _ => [currentPath]
     | .vobj fields =>
       match lookupField fields "type" with
       | some (.vstr _) => [currentPath]
       | _ => generateOutputPathsF fuel fields currentPath
     | .varr _ => []
     | _ => [currentPath])
    ++ generateOutputPathsF fuel rest pre

/-- Shallow embedding of `generateOutputPaths`: dotted leaf paths of a
declared-outputs object. -/
def generateOutputPaths (outputs : List (String × JSVal)) (pre : String) : List String :=
  generateOutputPathsF (jsSizeFields outputs) outputs pre

/-- The recursion of `generateOutputPathsWithTypes`, fuel-driven like
`generateOutputPathsF`: dotted paths paired with their types.
`array`/`object` nodes carrying `items.properties` / `properties` contribute
an entry for the container and recurse into the children; `{type, ...}`
objects without children are leaves of that type; legacy nested objects are
recursed into; everything else is `any`. -/
def generateOutputPathsWithTypesF : Nat → List (String × JSVal) → String → List (String × String)
  | _, [], _ => []
  | 0, _ :: _, _ => []
  | fuel + 1, (key, value) :: rest, pre =>
    let currentPath := dotPath pre key
    (match value with
     | .vstr s => [(currentPath, s)]
     | .vobj fields =>
       match lookupField fields "type" with
       | some (.vstr t) =>
         if t = "array" then
           match (lookupField fields "items").bind (fun it => getField it "properties") with
           | some props =>
             if truthy props then
               (currentPath, "array") ::
                 generateOutputPathsWithTypesF fuel (entriesOf props) currentPath
             else [(currentPath, t)]
           | none => [(currentPath, t)]
         else if t = "object" then
           match lookupField fields "properties" with
           | some props =>
             if truthy props then
               (currentPath, "object") ::
                 generateOutputPathsWithTypesF fuel (entriesOf props) currentPath
             else [(currentPath, t)]
           | none => [(currentPath, t)]
         else [(currentPath, t)]
       | _ => generateOutputPathsWithTypesF fuel fields currentPath
     | .varr _ => []
     | _ => [(currentPath, "any")])
    ++ generateOutputPathsWithTypesF fuel rest pre

/-- Shallow embedding of `generateOutputPathsWithTypes`. -/
def generateOutputPathsWithTypes (outputs : List (String × JSVal)) (pre : String) :
    List (String × String) :=
  generateOutputPathsWithTypesF (jsSizeFields outputs) outputs pre

/-! ### Data model: blocks, block configs, tag groups, environment -/

/-- `v === s` for a string literal `s` (the only `===` comparisons the tag
engine performs on dynamic values). -/
def jsEqStr (v : JSVal) (s : String) : Bool :=
  match v with
  | .vstr t => t = s
  | _ => false

/-- Generic first-match association-list lookup (JS map/record access). -/
def lookupAssoc {α : Type} : List (String × α) → String → Option α
  | [], _ => none
  | (k, v) :: rest, key => if k = key then some v else lookupAssoc rest key

/-- A block of the workflow store (`BlockState`): type tag, display name,
trigger-mode flag and persisted sub-block objects (field name ↦ object
carrying a `value` property). -/
structure Block where
  type : String
  name : String
  triggerMode : Bool
  subBlocks : List (String × JSVal)

/-- The static per-type `BlockConfig` surface the tag engine reads: declared
`outputs`, `category`, `triggers?.enabled`, and the `tools.config.tool`
operation-to-tool resolver when present. -/
structure BlockCfg where
  outputs : List (String × JSVal)
  category : String
  triggersEnabled : Bool
  toolFn : Option (JSVal → Option String)

/-- The external collaborators of the tag engine, abstracted as functions:
the `getBlock` config registry, the tool registry (`getTool(...)?.outputs`,
`none` when the tool or its outputs are absent), the dynamic
`getBlockOutputPaths` helper, the sub-block store (`getValue`), the live
sub-block values of the active workflow, the block store, and `JSON.parse`. -/
structure Env where
  getBlock : String → Option BlockCfg
  getTool : String → Option (List (String × JSVal))
  getBlockOutputPaths : String → List (String × JSVal) → Bool → List String
  storeValue : String → String → JSVal
  liveValues : String → List (String × JSVal)
  blocks : List (String × Block)
  jsonParse : String → Option JSVal

/-- `{...fs, key: v}`: replace the first occurrence in place, else append. -/
def setField : List (String × JSVal) → String → JSVal → List (String × JSVal)
  | [], key, v => [(key, v)]
  | (k, w) :: rest, key, v =>
    if k = key then (k, v) :: rest else (k, w) :: setField rest key v

/-- `{ ...(base || {}), value: liveVal }` for one sub-block entry. -/
def spreadWithValue (base : Option JSVal) (liveVal : JSVal) : JSVal :=
  match base with
  | some (.vobj fs) => .vobj (setField fs "value" liveVal)
  | _ => .vobj [("value", liveVal)]

/-- Shallow embedding of `getMergedSubBlocks` (auth-client.ts lines 387–398):
persisted sub-blocks overlaid field-by-field with live store values. -/
def getMergedSubBlocks (env : Env) (targetBlockId : String) : List (String × JSVal) :=
  let base := match lookupAssoc env.blocks targetBlockId with
    | some b => b.subBlocks
    | none => []
  (env.liveValues targetBlockId).foldl
    (fun merged kv => setField merged kv.1 (spreadWithValue (lookupField base kv.1) kv.2))
    base

/-- `merged?.[subId]?.value` — the read pattern used on merged sub-blocks. -/
def mergedValueJS (merged : List (String × JSVal)) (subId : String) : JSVal :=
  match lookupField merged subId with
  | some o => getFieldD o "value"
  | none => .vundefined

/-- Shallow embedding of `generateToolOutputPaths` (auth-client.ts lines
301–319): resolve the operation to a tool id, fetch its outputs, derive
paths; every failure mode yields `[]`. -/
def generateToolOutputPaths (getTool : String → Option (List (String × JSVal)))
    (blockConfig : BlockCfg) (operation : JSVal) : List String :=
  match blockConfig.toolFn with
  | none => []
  | some toolOfOp =>
    match toolOfOp operation with
    | none => []
    | some toolId =>
      if toolId = "" then []
      else
        match getTool toolId with
        | none => []
        | some outs => generateOutputPaths outs ""

/-- Shallow embedding of `ensureRootTag` (auth-client.ts lines 138–148). -/
def ensureRootTag (tags : List String) (rootTag : String) : List String :=
  if rootTag = "" then tags
  else if rootTag ∈ tags then tags
  else rootTag :: tags

/-- The root-tag policy applied after computing a block's tags (auth-client.ts
lines 581–585 and 893–897): ensure the bare normalized name exists, then
filter it out unless the block type is `generic_webhook`. -/
def rootTagPolicy (blockType normalizedBlockName : String) (tags : List String) : List String :=
  let withRoot := ensureRootTag tags normalizedBlockName
  if blockType = "generic_webhook" then withRoot
  else withRoot.filter (fun tag => tag ≠ normalizedBlockName)

/-- `block.name || block.type` — the display name fallback. -/
def displayName (b : Block) : String :=
  if b.name ≠ "" then b.name else b.type

/-- The per-accessible-block tag derivation of the dropdown (auth-client.ts
lines 796–891), before the root-tag policy: trigger/starter dynamic outputs,
evaluator metrics, variables assignments, response-format schema fields,
empty-outputs fallback, trigger-mode outputs, tool-specific outputs, and the
static declared outputs. -/
def computeBlockTagsCore (env : Env) (accessibleBlockId : String) (accessibleBlock : Block)
    (blockConfig : BlockCfg) : List String :=
  let normalizedBlockName := normalizeBlockName (displayName accessibleBlock)
  let qualify := fun (paths : List String) =>
    paths.map (fun p => normalizedBlockName ++ "." ++ p)
  let staticTags := qualify (generateOutputPaths blockConfig.outputs "")
  let mergedSubBlocks := getMergedSubBlocks env accessibleBlockId
  let responseFormat :=
    parseResponseFormatSafely env.jsonParse (mergedValueJS mergedSubBlocks "responseFormat")
  if blockConfig.category = "triggers" ∨ accessibleBlock.type = "starter" then
    let dynamicOutputs := env.getBlockOutputPaths accessibleBlock.type mergedSubBlocks false
    if dynamicOutputs ≠ [] then qualify dynamicOutputs
    else if accessibleBlock.type = "starter" then
      if jsEqStr (mergedValueJS mergedSubBlocks "startWorkflow") "chat" then
        [normalizedBlockName ++ ".input", normalizedBlockName ++ ".conversationId",
         normalizedBlockName ++ ".files"]
      else [normalizedBlockName]
    else if accessibleBlock.type = "generic_webhook" then [normalizedBlockName]
    else []
  else if accessibleBlock.type = "evaluator" then
    match env.storeValue accessibleBlockId "metrics" with
    | .varr ms =>
      if ms.length > 0 then
        (ms.filter (fun m => truthy (getFieldD m "name"))).map
          (fun m => normalizedBlockName ++ "." ++ jsToLower (jsTemplateStr (getFieldD m "name")))
      else staticTags
    | _ => staticTags
  else if accessibleBlock.type = "variables" then
    match env.storeValue accessibleBlockId "variables" with
    | .varr asgs =>
      if asgs.length > 0 then
        (asgs.filter (fun a =>
            match getField a "variableName" with
            | some (.vstr s) => jsTrim s ≠ ""
            | _ => false)).map
          (fun a => normalizedBlockName ++ "." ++ jsTrim (jsTemplateStr (getFieldD a "variableName")))
      else [normalizedBlockName]
    | _ => [normalizedBlockName]
  else if truthy responseFormat then
    let schemaFields := extractFieldNamesFromSchema responseFormat
    if schemaFields ≠ [] then
      schemaFields.map (fun f => normalizedBlockName ++ "." ++ f)
    else staticTags
  else if blockConfig.outputs.isEmpty then [normalizedBlockName]
  else if accessibleBlock.triggerMode && blockConfig.triggersEnabled then
    let dynamicOutputs := env.getBlockOutputPaths accessibleBlock.type mergedSubBlocks true
    if dynamicOutputs ≠ [] then qualify dynamicOutputs else staticTags
  else
    let opLhs := mergedValueJS mergedSubBlocks "operation"
    let operationValue :=
      if isNullish opLhs then env.storeValue accessibleBlockId "operation" else opLhs
    let toolOutputPaths :=
      if truthy operationValue then generateToolOutputPaths env.getTool blockConfig operationValue
      else []
    if toolOutputPaths ≠ [] then qualify toolOutputPaths else staticTags

/-- A block's dropdown tags: the per-block derivation followed by the
root-tag policy (auth-client.ts lines 796–897). -/
def computeBlockTags (env : Env) (accessibleBlockId : String) (accessibleBlock : Block)
    (blockConfig : BlockCfg) : List String :=
  rootTagPolicy accessibleBlock.type (normalizeBlockName (displayName accessibleBlock))
    (computeBlockTagsCore env accessibleBlockId accessibleBlock blockConfig)

/-- `BlockTagGroup`. -/
structure TagGroup where
  blockName : String
  blockId : String
  blockType : String
  tags : List String
  distance : Nat
deriving DecidableEq

/-- The accessible-block loop of the dropdown (auth-client.ts lines 745–908):
one tag group per accessible block, skipping missing blocks, the requesting
block itself, config-less non-container blocks, and the containing
loop/parallel container (handled by contextual groups instead). Config-less
loop/parallel blocks get the mock `{results: 'array'}` outputs with the root
tag kept. -/
def buildGroups (env : Env) (blockId : String)
    (containingLoopBlockId containingParallelBlockId : Option String)
    (blockDistances : List (String × Nat)) : List String → List TagGroup
  | [] => []
  | accessibleBlockId :: rest =>
    let restGroups :=
      buildGroups env blockId containingLoopBlockId containingParallelBlockId blockDistances rest
    match lookupAssoc env.blocks accessibleBlockId with
    | none => restGroups
    | some accessibleBlock =>
      if accessibleBlockId = blockId then restGroups
      else
        match env.getBlock accessibleBlock.type with
        | none =>
          if accessibleBlock.type = "loop" ∨ accessibleBlock.type = "parallel" then
            if containingLoopBlockId = some accessibleBlockId ∨
                containingParallelBlockId = some accessibleBlockId then restGroups
            else
              let normalizedBlockName := normalizeBlockName (displayName accessibleBlock)
              let mockPaths := generateOutputPaths [("results", .vstr "array")] ""
              let blockTags := ensureRootTag
                (mockPaths.map (fun p => normalizedBlockName ++ "." ++ p)) normalizedBlockName
              { blockName := displayName accessibleBlock
                blockId := accessibleBlockId
                blockType := accessibleBlock.type
                tags := blockTags
                distance := (lookupAssoc blockDistances accessibleBlockId).getD 0 } :: restGroups
          else restGroups
        | some blockConfig =>
          { blockName := displayName accessibleBlock
            blockId := accessibleBlockId
            blockType := accessibleBlock.type
            tags := computeBlockTags env accessibleBlockId accessibleBlock blockConfig
            distance := (lookupAssoc blockDistances accessibleBlockId).getD 0 } :: restGroups

/-! ### Loop / parallel contextual groups (auth-client.ts lines 659–743) -/

/-- A loop container: member block ids and the `loopType` discriminator. -/
structure LoopCfg where
  nodes : List String
  loopType : JSVal

/-- A parallel container: member block ids and `parallelType`. -/
structure ParallelCfg where
  nodes : List String
  parallelType : JSVal

/-- The contextual tags of a loop: `index` and `currentIteration` always,
plus `currentItem`/`items` when `loopType || 'for'` is `forEach`. -/
def loopContextualTags (loopTypeRaw : JSVal) : List String :=
  let loopType := if truthy loopTypeRaw then loopTypeRaw else .vstr "for"
  ["index", "currentIteration"] ++
    (if jsEqStr loopType "forEach" then ["currentItem", "items"] else [])

/-- The contextual tags of a parallel: `index` always, plus
`currentItem`/`items` when `parallelType || 'count'` is `collection`. -/
def parallelContextualTags (parallelTypeRaw : JSVal) : List String :=
  let parallelType := if truthy parallelTypeRaw then parallelTypeRaw else .vstr "count"
  ["index"] ++
    (if jsEqStr parallelType "collection" then ["currentItem", "items"] else [])

/-- Loop contextual group for the requesting block (lines 659–714): priority
to a loop block editing its own configuration, else the loop containing the
block. Also returns `containingLoopBlockId`. -/
def loopContext (blocks : List (String × Block)) (loops : List (String × LoopCfg))
    (blockId : String) : Option TagGroup × Option String :=
  let isLoopBlock := match lookupAssoc blocks blockId with
    | some b => b.type == "loop"
    | none => false
  let currentLoop := if isLoopBlock then lookupAssoc loops blockId else none
  let containingLoop := loops.find? (fun e => blockId ∈ e.2.nodes)
  match currentLoop with
  | some cl =>
    let contextualTags := loopContextualTags cl.loopType
    (match lookupAssoc blocks blockId with
     | some loopBlock =>
       some { blockName := displayName loopBlock, blockId := blockId, blockType := "loop",
              tags := contextualTags, distance := 0 }
     | none => none, some blockId)
  | none =>
    match containingLoop with
    | some (loopId, loop) =>
      let contextualTags := loopContextualTags loop.loopType
      (match lookupAssoc blocks loopId with
       | some containingLoopBlock =>
         some { blockName := displayName containingLoopBlock, blockId := loopId,
                blockType := "loop", tags := contextualTags, distance := 0 }
       | none => none, some loopId)
    | none => (none, none)

/-- Parallel contextual group (lines 716–743): only the containing parallel
(there is no self case for parallels). -/
def parallelContext (blocks : List (String × Block))
    (parallels : List (String × ParallelCfg)) (blockId : String) :
    Option TagGroup × Option String :=
  match parallels.find? (fun e => blockId ∈ e.2.nodes) with
  | some (parallelId, parallel) =>
    let contextualTags := parallelContextualTags parallel.parallelType
    (match lookupAssoc blocks parallelId with
     | some containingParallelBlock =>
       some { blockName := displayName containingParallelBlock, blockId := parallelId,
              blockType := "parallel", tags := contextualTags, distance := 0 }
     | none => none, some parallelId)
  | none => (none, none)

/-! ### Final group ordering (auth-client.ts lines 910–919) -/

/-- One step of the stable insertion modelling `Array.prototype.sort` with
comparator `(a, b) => a.distance - b.distance`. -/
def sortInsert (g : TagGroup) : List TagGroup → List TagGroup
  | [] => [g]
  | h :: t => if h.distance ≤ g.distance then h :: sortInsert g t else g :: h :: t

/-- Stable sort of tag groups by ascending `distance`. -/
def sortByDistance : List TagGroup → List TagGroup
  | [] => []
  | h :: t => sortInsert h (sortByDistance t)

/-- `finalBlockTagGroups`: loop contextual group first, then parallel, then
the accessible-block groups sorted by ascending BFS distance. -/
def finalGroups (loopBlockGroup parallelBlockGroup : Option TagGroup)
    (accGroups : List TagGroup) : List TagGroup :=
  loopBlockGroup.toList ++ parallelBlockGroup.toList ++ sortByDistance accGroups

/-! ### Nested grouping and flat visual order (auth-client.ts lines 976–1065) -/

/-- A child entry of a grouped (≥ 3 segment) tag. -/
structure ChildTag where
  key : String
  display : String
  fullTag : String
deriving DecidableEq

/-- A nested dropdown entry: either a parent with children or a direct tag. -/
structure NestedTag where
  key : String
  display : String
  fullTag : Option String
  children : List ChildTag
deriving DecidableEq

/-- Append a child under its parent key, preserving first-insertion order of
parents (JS string-keyed record iteration order). -/
def addGroupedTag (parent : String) (child : ChildTag) :
    List (String × List ChildTag) → List (String × List ChildTag)
  | [] => [(parent, [child])]
  | (p, cs) :: rest =>
    if p = parent then (p, cs ++ [child]) :: rest
    else (p, cs) :: addGroupedTag parent child rest

/-- The grouped/direct split of one group's tags (lines 985–1025): tags with
≥ 3 dot-segments group under their second segment; 1-segment tags of
loop/parallel groups are contextual directs; other tags are directs keyed by
their path (or the block name when the path is empty). -/
def nestedTagsOfGroup (g : TagGroup) : List NestedTag :=
  let step := fun (acc : List (String × List ChildTag) × List NestedTag) (tag : String) =>
    let tagParts := splitDot tag
    if 3 ≤ tagParts.length then
      let parent := (tagParts.get? 1).getD ""
      let child := joinWithDot (tagParts.drop 2)
      (addGroupedTag parent ⟨parent ++ "." ++ child, child, tag⟩ acc.1, acc.2)
    else
      let path := joinWithDot (tagParts.drop 1)
      if (g.blockType = "loop" ∨ g.blockType = "parallel") ∧ tagParts.length = 1 then
        (acc.1, acc.2 ++ [⟨tag, tag, some tag, []⟩])
      else
        let keyed := if path ≠ "" then path else g.blockName
        (acc.1, acc.2 ++ [⟨keyed, keyed, some tag, []⟩])
  let folded := g.tags.foldl step ([], [])
  (folded.1.map (fun pc => ⟨pc.1, pc.1, none, pc.2⟩)) ++ folded.2

/-- The flat visual order contributed by one group (lines 1051–1061): a
parent is represented by its first child's full tag; directs by their own
full tag; empty-string tags are skipped by the truthiness guards. -/
def visualTagsOfGroup (g : TagGroup) : List String :=
  (nestedTagsOfGroup g).filterMap (fun nt =>
    match nt.children with
    | c :: _ => if c.fullTag ≠ "" then some c.fullTag else none
    | [] => nt.fullTag.bind (fun t => if t ≠ "" then some t else none))

/-- `orderedTags` (lines 1046–1065): variable tags first, then each group's
visual tags in group order. -/
def orderedTagsDef (variableTags : List String) (groups : List TagGroup) : List String :=
  variableTags ++ (groups.map visualTagsOfGroup).flatten

/-! ### BFS distances from the starter block (auth-client.ts lines 613–637)

The `while` loop is modelled with explicit fuel (`none` = fuel exhausted, a
state the real loop never reaches — see the termination theorem).  Alongside
the distance map the model records, for every push onto the queue, whether
the pushed target was already visited at push time. -/

/-- A workflow edge. -/
structure EdgeT where
  source : String
  target : String
deriving DecidableEq

/-- The BFS worklist loop.  The queue holds `(nodeId, distance)` pairs;
already-visited nodes are skipped when dequeued (but pushed unconditionally,
exactly as in the source).  Returns the distance map and the push log. -/
def bfsAux (edges : List EdgeT) :
    Nat → List (String × Nat) → List String → List (String × Nat) → List (String × Bool) →
    Option (List (String × Nat) × List (String × Bool))
  | _, [], _, dist, log => some (dist, log)
  | 0, _ :: _, _, _, _ => none
  | fuel + 1, (currentNodeId, distance) :: rest, visited, dist, log =>
    if currentNodeId ∈ visited then bfsAux edges fuel rest visited dist log
    else
      let visited1 := currentNodeId :: visited
      let outgoingNodeIds := (edges.filter (fun e => e.source = currentNodeId)).map (·.target)
      bfsAux edges fuel (rest ++ outgoingNodeIds.map (fun t => (t, distance + 1)))
        visited1 (dist ++ [(currentNodeId, distance)])
        (log ++ outgoingNodeIds.map (fun t => (t, decide (t ∈ visited1))))

/-- `blockDistances`: empty when there is no starter block, else BFS from it. -/
def blockDistancesOf (blocks : List (String × Block)) (edges : List EdgeT) (fuel : Nat) :
    Option (List (String × Nat)) :=
  match blocks.find? (fun e => e.2.type = "starter") with
  | none => some []
  | some (starterId, _) => (bfsAux edges fuel [(starterId, 0)] [] [] []).map (·.1)

/-- Graph reachability along edges, for the BFS correctness statements. -/
inductive ReachableFrom (edges : List EdgeT) (root : String) : String → Prop where
  | refl : ReachableFrom edges root root
  | step {x : String} {e : EdgeT} :
      ReachableFrom edges root x → e ∈ edges → e.source = x →
      ReachableFrom edges root e.target

/-- Modelled from the spec: `useAccessibleReferencePrefixes` (the Scope
Resolver hook imported by the dropdown) is not part of the visible source.
Per §4.2 of the spec it computes "the complete set of upstream block ids
reachable by following edges backward from `B`", with `B` itself removed
(self-exclusion).  Modelled as backward reachability via the BFS loop on the
reversed edge list. -/
def specAccessible (edges : List EdgeT) (blockId : String) (fuel : Nat) :
    Option (List String) :=
  (bfsAux (edges.map (fun e => ⟨e.target, e.source⟩)) fuel [(blockId, 0)] [] [] []).map
    (fun r => (r.1.map (·.1)).filter (fun x => x ≠ blockId))

/-! ### Tag processing on selection (auth-client.ts lines 1100–1147)

`getOutputTypeForPath` reaches into the store and into
`@/lib/workflows/block-outputs` (not in the visible source); the resolved
type of the parent field is therefore abstracted as `fieldTypeOf`. -/

/-- The fixed file-metadata property set of `handleTagSelect`. -/
def fileProperties : List String :=
  ["url", "name", "size", "type", "key", "uploadedAt", "expiresAt"]

/-- The tag rewriting of `handleTagSelect` before the textual splice: the
file-property first-index rewrite, the variable-tag passthrough, and the
loop/parallel contextual-tag prefixing. -/
def processTag (fieldTypeOf : String → String) (workflowVariables : List String)
    (tag : String) (blockGroup : Option TagGroup) : String :=
  let parts := splitDot tag
  let fileAdjusted :=
    if 2 ≤ parts.length ∧ parts.getLastD "" ∈ fileProperties then
      match blockGroup with
      | some _ =>
        let fieldName := (parts.get? (parts.length - 2)).getD ""
        if fieldTypeOf fieldName = "files" then
          joinWithDot parts.dropLast ++ "[0]." ++ parts.getLastD ""
        else tag
      | none => tag
    else tag
  if jsStartsWith tag "variable." then
    let variableName : String := ⟨tag.data.drop 9⟩
    if workflowVariables.any (fun v => normalizeVariableName v = variableName) then tag
    else fileAdjusted
  else
    match blockGroup with
    | some g =>
      if g.blockType = "loop" ∨ g.blockType = "parallel" then
        if !strContainsChar tag '.' && tag ∈ ["index", "currentItem", "items"] then
          g.blockType ++ "." ++ tag
        else tag
      else fileAdjusted
    | none => fileAdjusted

/-! ### Concrete instances used to evaluate the definitions -/

/-- An environment with an empty workflow and absent registries. -/
def envTrivial : Env where
  getBlock := fun _ => none
  getTool := fun _ => none
  getBlockOutputPaths := fun _ _ _ => []
  storeValue := fun _ _ => .vundefined
  liveValues := fun _ => []
  blocks := []
  jsonParse := fun _ => none

/-- A plain action-block config with one declared string output. -/
def cfgAgent : BlockCfg := ⟨[("result", .vstr "string")], "blocks", false, none⟩

/-- A starter-block config. -/
def cfgStarter : BlockCfg := ⟨[("input", .vstr "any")], "blocks", false, none⟩

/-- A generic-webhook block instance. -/
def webhookBlock : Block := ⟨"generic_webhook", "Hook 1", false, []⟩

/-- A webhook-ish config (category `triggers`, no declared outputs). -/
def cfgWebhook : BlockCfg := ⟨[], "triggers", false, none⟩

/-- A two-block environment for evaluating the group construction. -/
def envW : Env where
  getBlock := fun t => if t = "agent" then some cfgAgent else none
  getTool := fun _ => none
  getBlockOutputPaths := fun _ _ _ => []
  storeValue := fun _ _ => .vundefined
  liveValues := fun _ => []
  blocks := [("a", ⟨"agent", "A", false, []⟩), ("b", ⟨"agent", "B", false, []⟩)]
  jsonParse := fun _ => none

/-- A loop contextual tag group, as built by the dropdown for a `for` loop. -/
def loopGroupCE : TagGroup := ⟨"Loop 1", "loop1", "loop", ["index", "currentIteration"], 0⟩

/-- An environment holding one accessible loop block; like in the source,
`getBlock` has no config for the `loop` type. -/
def envLoopW : Env where
  getBlock := fun _ => none
  getTool := fun _ => none
  getBlockOutputPaths := fun _ _ _ => []
  storeValue := fun _ _ => .vundefined
  liveValues := fun _ => []
  blocks := [("loopA", ⟨"loop", "Loop A", false, []⟩)]
  jsonParse := fun _ => none

/-- The declared-outputs example of the spec:
`{result: {type: "object", properties: {a: "string", b: {type: "number"}}}}`. -/
def exampleOutputs : List (String × JSVal) :=
  [("result", .vobj [("type", .vstr "object"),
    ("properties", .vobj [("a", .vstr "string"), ("b", .vobj [("type", .vstr "number")])])])]

/-! ### The `starter -> A -> loop{B} -> C` scenario (spec §8) -/

/-- Scenario blocks: a starter, two agents `A`/`C`, a loop container, and the
loop member `B`. -/
def scenBlocks : List (String × Block) :=
  [("starter1", ⟨"starter", "Start", false, []⟩),
   ("A", ⟨"agent", "Block A", false, []⟩),
   ("loop1", ⟨"loop", "Loop 1", false, []⟩),
   ("B", ⟨"agent", "Block B", false, []⟩),
   ("C", ⟨"agent", "Block C", false, []⟩)]

/-- Scenario edges: `starter -> A -> loop`, loop to its member `B`, and
`loop -> C`. -/
def scenEdges : List EdgeT :=
  [⟨"starter1", "A"⟩, ⟨"A", "loop1"⟩, ⟨"loop1", "B"⟩, ⟨"loop1", "C"⟩]

/-- The scenario loop: `B` is its only member; `loopType` is `forEach`. -/
def scenLoops : List (String × LoopCfg) := [("loop1", ⟨["B"], .vstr "forEach"⟩)]

/-- Scenario environment: configs for `agent` and `starter`, none for `loop`
(as in the source, loop/parallel types have no block config). -/
def scenEnv : Env where
  getBlock := fun t =>
    if t = "agent" then some cfgAgent
    else if t = "starter" then some cfgStarter
    else none
  getTool := fun _ => none
  getBlockOutputPaths := fun _ _ _ => []
  storeValue := fun _ _ => .vundefined
  liveValues := fun _ => []
  blocks := scenBlocks
  jsonParse := fun _ => none

/-- The final tag groups the dropdown computes for `B` in the scenario, using
the spec-modelled accessible set. -/
def scenFinalGroups : List TagGroup :=
  let loopCtx := loopContext scenBlocks scenLoops "B"
  let parCtx := parallelContext scenBlocks [] "B"
  let dists := (blockDistancesOf scenBlocks scenEdges 32).getD []
  let accIds := (specAccessible scenEdges "B" 32).getD []
  finalGroups loopCtx.1 parCtx.1 (buildGroups scenEnv "B" loopCtx.2 parCtx.2 dists accIds)

/-! ## Theorems -/

theorem lookupAssoc_mem {α : Type} {l : List (String × α)} {k : String} {v : α}
    (h : lookupAssoc l k = some v) : (k, v) ∈ l := by
  induction l with
  | nil => simp [lookupAssoc] at h
  | cons kv rest ih =>
    cases kv with
    | mk k0 v0 =>
      rw [lookupAssoc] at h
      by_cases hk : k0 = k
      · simp [hk] at h
        simp [hk, h]
      · simp [hk] at h
        exact List.mem_cons_of_mem _ (ih h)

theorem jsSize_pos (v : JSVal) : 1 ≤ jsSize v := by
  cases v <;> simp [jsSize]

theorem lookupField_jsSize_lt {fs : List (String × JSVal)} {key : String} {v : JSVal}
    (h : lookupField fs key = some v) : jsSize v < jsSizeFields fs := by
  induction fs with
  | nil => simp [lookupField] at h
  | cons kv rest ih =>
    cases kv with
    | mk k w =>
      rw [lookupField] at h
      by_cases hk : k = key
      · simp [hk] at h
        subst h
        simp [jsSizeFields]
        omega
      · simp [hk] at h
        have := ih h
        simp [jsSizeFields]
        omega

theorem getField_jsSize_lt {w : JSVal} {key : String} {v : JSVal}
    (h : getField w key = some v) : jsSize v < jsSize w := by
  cases w with
  | vobj fs =>
    have := lookupField_jsSize_lt h
    simp [jsSize]
    omega
  | vundefined => simp [getField] at h
  | vnull => simp [getField] at h
  | vbool b => simp [getField] at h
  | vnum n => simp [getField] at h
  | vstr s => simp [getField] at h
  | varr xs => simp [getField] at h

theorem entriesOf_jsSize_lt (v : JSVal) : jsSizeFields (entriesOf v) < jsSize v := by
  cases v <;> simp [entriesOf, jsSize, jsSizeFields]

/-- Fuel invariance: the typed output-path generator gives the same result
for every fuel at least the structural size of its input; in particular its
canonical fuel is sufficient and the JS recursion is faithfully captured. -/
theorem generateOutputPathsWithTypesF_congr :
    ∀ (f1 : Nat) (l : List (String × JSVal)) (pre : String) (f2 : Nat),
      jsSizeFields l ≤ f1 → jsSizeFields l ≤ f2 →
      generateOutputPathsWithTypesF f1 l pre = generateOutputPathsWithTypesF f2 l pre := by
  intro f1
  induction f1 with
  | zero =>
    intro l pre f2 h1 h2
    cases l with
    | nil => cases f2 <;> simp [generateOutputPathsWithTypesF]
    | cons kv rest =>
      cases kv with
      | mk k v =>
        have := jsSize_pos v
        simp [jsSizeFields] at h1
  | succ g1 ih =>
    intro l pre f2 h1 h2
    cases l with
    | nil => cases f2 <;> simp [generateOutputPathsWithTypesF]
    | cons kv rest =>
      cases kv with
      | mk key value =>
        cases f2 with
        | zero =>
          have := jsSize_pos value
          simp [jsSizeFields] at h2
        | succ g2 =>
          simp only [jsSizeFields] at h1 h2
          have hrest1 : jsSizeFields rest ≤ g1 := by omega
          have hrest2 : jsSizeFields rest ≤ g2 := by omega
          have hval1 : jsSize value ≤ g1 := by omega
          have hval2 : jsSize value ≤ g2 := by omega
          simp only [generateOutputPathsWithTypesF]
          have htail := ih rest pre g2 hrest1 hrest2
          rw [htail]
          congr 1
          cases value with
          | vstr s => rfl
          | vundefined => rfl
          | vnull => rfl
          | vbool b => rfl
          | vnum n => rfl
          | varr xs => rfl
          | vobj fields =>
            have hflds1 : jsSizeFields fields ≤ g1 := by
              simp only [jsSize] at hval1
              omega
            have hflds2 : jsSizeFields fields ≤ g2 := by
              simp only [jsSize] at hval2
              omega
            cases hty : lookupField fields "type" with
            | none =>
              simp only [hty]
              exact ih fields (dotPath pre key) g2 hflds1 hflds2
            | some tv =>
              cases tv with
              | vstr t =>
                simp only [hty]
                by_cases harr : t = "array"
                · rw [if_pos harr, if_pos harr]
                  cases hbind : (lookupField fields "items").bind
                      (fun it => getField it "properties") with
                  | none => simp only [hbind]
                  | some props =>
                    simp only [hbind]
                    by_cases htr : truthy props = true
                    · rw [if_pos htr, if_pos htr]
                      obtain ⟨it, hit, hpr⟩ := Option.bind_eq_some.mp hbind
                      have s1 := lookupField_jsSize_lt hit
                      have s2 := getField_jsSize_lt hpr
                      have s3 := entriesOf_jsSize_lt props
                      have hprops1 : jsSizeFields (entriesOf props) ≤ g1 := by omega
                      have hprops2 : jsSizeFields (entriesOf props) ≤ g2 := by omega
                      rw [ih (entriesOf props) (dotPath pre key) g2 hprops1 hprops2]
                    · rw [if_neg htr, if_neg htr]
                · rw [if_neg harr, if_neg harr]
                  by_cases hobj : t = "object"
                  · rw [if_pos hobj, if_pos hobj]
                    cases hp : lookupField fields "properties" with
                    | none => simp only [hp]
                    | some props =>
                      simp only [hp]
                      by_cases htr : truthy props = true
                      · rw [if_pos htr, if_pos htr]
                        have s1 := lookupField_jsSize_lt hp
                        have s3 := entriesOf_jsSize_lt props
                        have hprops1 : jsSizeFields (entriesOf props) ≤ g1 := by omega
                        have hprops2 : jsSizeFields (entriesOf props) ≤ g2 := by omega
                        rw [ih (entriesOf props) (dotPath pre key) g2 hprops1 hprops2]
                      · rw [if_neg htr, if_neg htr]
                  · rw [if_neg hobj, if_neg hobj]
              | vundefined =>
                simp only [hty]
                exact ih fields (dotPath pre key) g2 hflds1 hflds2
              | vnull =>
                simp only [hty]
                exact ih fields (dotPath pre key) g2 hflds1 hflds2
              | vbool b =>
                simp only [hty]
                exact ih fields (dotPath pre key) g2 hflds1 hflds2
              | vnum n =>
                simp only [hty]
                exact ih fields (dotPath pre key) g2 hflds1 hflds2
              | varr xs =>
                simp only [hty]
                exact ih fields (dotPath pre key) g2 hflds1 hflds2
              | vobj fs2 =>
                simp only [hty]
                exact ih fields (dotPath pre key) g2 hflds1 hflds2

theorem rootTagPolicy_mem_iff (blockType nm : String) (tags : List String) :
    (nm ∈ rootTagPolicy blockType nm tags → blockType = "generic_webhook") ∧
    (blockType = "generic_webhook" → nm ≠ "" → nm ∈ rootTagPolicy blockType nm tags) := by
  constructor
  · intro hmem
    by_contra hne
    simp [rootTagPolicy, hne] at hmem
  · intro hgw hne
    simp only [rootTagPolicy, hgw, if_pos]
    unfold ensureRootTag
    by_cases h : nm ∈ tags <;> simp [h, hne]

/-- C10: `parseResponseFormatSafely` is total and never throws: it returns
`undefined` for `null`, `undefined`, booleans, numbers, and
empty-after-trimming strings; returns objects (and arrays) unchanged; returns
the trimmed string itself, without JSON parsing, when it starts with `<` and
contains `>`; and otherwise returns the JSON parse result, `undefined` on a
parse failure. -/
theorem claim_C10 (jsonParse : String → Option JSVal) :
    parseResponseFormatSafely jsonParse .vnull = .vundefined ∧
    parseResponseFormatSafely jsonParse .vundefined = .vundefined ∧
    (∀ b, parseResponseFormatSafely jsonParse (.vbool b) = .vundefined) ∧
    (∀ n, parseResponseFormatSafely jsonParse (.vnum n) = .vundefined) ∧
    (∀ fs, parseResponseFormatSafely jsonParse (.vobj fs) = .vobj fs) ∧
    (∀ xs, parseResponseFormatSafely jsonParse (.varr xs) = .varr xs) ∧
    (∀ s, jsTrim s = "" → parseResponseFormatSafely jsonParse (.vstr s) = .vundefined) ∧
    (∀ s, jsStartsWith (jsTrim s) "<" = true → strContainsChar (jsTrim s) '>' = true →
      parseResponseFormatSafely jsonParse (.vstr s) = .vstr (jsTrim s)) ∧
    (∀ s, jsTrim s ≠ "" →
      (jsStartsWith (jsTrim s) "<" && strContainsChar (jsTrim s) '>') = false →
      parseResponseFormatSafely jsonParse (.vstr s) = (jsonParse (jsTrim s)).getD .vundefined) := by
  have htrimEmpty : jsTrim "" = "" := by decide
  refine ⟨rfl, rfl, ?_, ?_, ?_, ?_, ?_, ?_, ?_⟩
  · intro b; cases b <;> rfl
  · intro n
    by_cases hn : n = 0
    · simp [parseResponseFormatSafely, truthy, hn]
    · simp [parseResponseFormatSafely, truthy, hn]
  · intro fs; simp [parseResponseFormatSafely, truthy]
  · intro xs; simp [parseResponseFormatSafely, truthy]
  · intro s hs
    by_cases hse : s = ""
    · simp [parseResponseFormatSafely, truthy, hse]
    · have hsw : jsStartsWith (jsTrim s) "<" = false := by
        rw [hs]; decide
      simp [parseResponseFormatSafely, truthy, hse, hsw, hs]
      decide
  · intro s h1 h2
    have hse : s ≠ "" := by
      intro hcon
      rw [hcon, htrimEmpty] at h1
      simp [jsStartsWith] at h1
    simp [parseResponseFormatSafely, truthy, hse, h1, h2]
  · intro s h1 h2
    have hse : s ≠ "" := by
      intro hcon
      rw [hcon] at h1
      exact h1 htrimEmpty
    simp only [Bool.and_eq_false_iff] at h2
    rcases h2 with h2 | h2 <;>
      · simp [parseResponseFormatSafely, truthy, hse, h1, h2]
        cases hjp : jsonParse (jsTrim s) <;> simp [hjp]

theorem claim_C10_witness :
    parseResponseFormatSafely (fun _ => none) (.vstr "   ") = .vundefined ∧
    parseResponseFormatSafely (fun _ => none) (.vstr " <a> ") = .vstr (jsTrim " <a> ") ∧
    parseResponseFormatSafely (fun _ => none) (.vstr "oops") =
      ((fun (_ : String) => (none : Option JSVal)) (jsTrim "oops")).getD .vundefined := by
  refine ⟨?_, ?_, ?_⟩
  · exact (claim_C10 (fun _ => none)).2.2.2.2.2.2.1 "   " (by decide)
  · exact (claim_C10 (fun _ => none)).2.2.2.2.2.2.2.1 " <a> " (by decide) (by decide)
  · exact (claim_C10 (fun _ => none)).2.2.2.2.2.2.2.2 "oops" (by decide) (by decide)

/-- C4 (counterexample): an accessible config-less `loop` block takes the
mock-outputs branch of the dropdown, where `ensureRootTag` is applied with no
`generic_webhook` filter — its bare normalized name `loopa` is a tag although
a child `loopa.results` exists and the type is not `generic_webhook`,
refuting "present only when the block type is generic_webhook". -/
theorem claim_C4_counterexample :
    buildGroups envLoopW "b" none none [] ["loopA"] =
      [⟨"Loop A", "loopA", "loop", ["loopa", "loopa.results"], 0⟩] ∧
    "loopa" ∈ (["loopa", "loopa.results"] : List String) ∧
    normalizeBlockName "Loop A" = "loopa" ∧
    ("loop" : String) ≠ "generic_webhook" :=
  ⟨by decide, by decide, by decide, by decide⟩

/-- C4 (amended): for every accessible block that has a registered block
config, the bare normalized name is present among the group's tags only when
the block type is `generic_webhook` (for which, with a nonempty normalized
name, it is always present); accessible config-less blocks — which the
dropdown only groups when their type is `loop` or `parallel` — are exempt:
they receive the mock `{results: 'array'}` outputs with the bare root tag
kept alongside the child. -/
theorem claim_C4 :
    (∀ (env : Env) (blockId : String)
        (containingLoopBlockId containingParallelBlockId : Option String)
        (blockDistances : List (String × Nat)) (accessibleBlockIds : List String)
        (g : TagGroup),
      g ∈ buildGroups env blockId containingLoopBlockId containingParallelBlockId
          blockDistances accessibleBlockIds →
      ((env.getBlock g.blockType).isSome = true →
        normalizeBlockName g.blockName ∈ g.tags → g.blockType = "generic_webhook") ∧
      (env.getBlock g.blockType = none →
        (g.blockType = "loop" ∨ g.blockType = "parallel") ∧
        (normalizeBlockName g.blockName ≠ "" →
          normalizeBlockName g.blockName ∈ g.tags))) ∧
    (∀ (env : Env) (accessibleBlockId : String) (accessibleBlock : Block)
        (blockConfig : BlockCfg),
      accessibleBlock.type = "generic_webhook" →
      normalizeBlockName (displayName accessibleBlock) ≠ "" →
      normalizeBlockName (displayName accessibleBlock) ∈
        computeBlockTags env accessibleBlockId accessibleBlock blockConfig) := by
  constructor
  · intro env blockId containingLoopBlockId containingParallelBlockId blockDistances
      accessibleBlockIds
    induction accessibleBlockIds with
    | nil => intro g hg; simp [buildGroups] at hg
    | cons aid rest ih =>
      intro g hg
      rw [buildGroups] at hg
      cases hb : lookupAssoc env.blocks aid with
      | none =>
        simp only [hb] at hg
        exact ih g hg
      | some ab =>
        simp only [hb] at hg
        by_cases heq : aid = blockId
        · rw [if_pos heq] at hg
          exact ih g hg
        · rw [if_neg heq] at hg
          cases hc : env.getBlock ab.type with
          | none =>
            simp only [hc] at hg
            by_cases hlp : ab.type = "loop" ∨ ab.type = "parallel"
            · rw [if_pos hlp] at hg
              by_cases hcont : containingLoopBlockId = some aid ∨
                  containingParallelBlockId = some aid
              · rw [if_pos hcont] at hg
                exact ih g hg
              · rw [if_neg hcont] at hg
                rcases List.mem_cons.mp hg with h | h
                · subst h
                  constructor
                  · intro hsome
                    simp [hc] at hsome
                  · intro _
                    refine ⟨hlp, ?_⟩
                    intro hne
                    have hmock : generateOutputPaths [("results", JSVal.vstr "array")] "" =
                        ["results"] := by decide
                    have hdot : String.length "." = 1 := by decide
                    have hres : String.length "results" = 7 := by decide
                    have hnotmem : normalizeBlockName (displayName ab) ∉
                        [normalizeBlockName (displayName ab) ++ "." ++ "results"] := by
                      intro hm
                      simp only [List.mem_singleton] at hm
                      have hlen := congrArg String.length hm
                      rw [String.length_append, String.length_append, hdot, hres] at hlen
                      omega
                    show normalizeBlockName (displayName ab) ∈ ensureRootTag
                      ((generateOutputPaths [("results", JSVal.vstr "array")] "").map
                        (fun p => normalizeBlockName (displayName ab) ++ "." ++ p))
                      (normalizeBlockName (displayName ab))
                    rw [hmock]
                    simp only [List.map_cons, List.map_nil]
                    rw [ensureRootTag, if_neg hne, if_neg hnotmem]
                    exact List.mem_cons_self _ _
                · exact ih g h
            · rw [if_neg hlp] at hg
              exact ih g hg
          | some cfg =>
            simp only [hc] at hg
            rcases List.mem_cons.mp hg with h | h
            · subst h
              constructor
              · intro _ hmem
                exact (rootTagPolicy_mem_iff ab.type (normalizeBlockName (displayName ab))
                  (computeBlockTagsCore env aid ab cfg)).1 hmem
              · intro hnone
                simp [hc] at hnone
            · exact ih g h
  · intro env accessibleBlockId accessibleBlock blockConfig hgw hne
    exact (rootTagPolicy_mem_iff accessibleBlock.type
      (normalizeBlockName (displayName accessibleBlock))
      (computeBlockTagsCore env accessibleBlockId accessibleBlock blockConfig)).2 hgw hne

theorem claim_C4_witness :
    normalizeBlockName (displayName webhookBlock) ∈
      computeBlockTags envTrivial "w1" webhookBlock cfgWebhook ∧
    normalizeBlockName "Loop A" ∈ (["loopa", "loopa.results"] : List String) :=
  ⟨claim_C4.2 envTrivial "w1" webhookBlock cfgWebhook (by decide) (by decide),
   ((claim_C4.1 envLoopW "b" none none [] ["loopA"]
      ⟨"Loop A", "loopA", "loop", ["loopa", "loopa.results"], 0⟩ (by decide)).2 rfl).2
     (by decide)⟩

/-- C2 (counterexample): the bare loop contextual tag `index`, selected with
a loop tag group, is not inserted unchanged — it is rewritten to
`loop.index` — refuting "for all other tags the selected tag is inserted
unchanged". -/
theorem claim_C2_counterexample :
    processTag (fun _ => "any") [] "index" (some loopGroupCE) = "loop.index" ∧
    "loop.index" ≠ "index" :=
  ⟨by decide, by decide⟩

/-- C2 (amended): for a tag selected with a non-loop/non-parallel block
group, if the final dot-segment is a file-metadata property and the resolved
parent type is `files`, the tag is rewritten with a `[0]` accessor between
the parent path and the property; otherwise it is inserted unchanged.  Tags
selected without a group are always inserted unchanged, and with a
loop/parallel group a bare contextual tag (`index`/`currentItem`/`items`) is
prefixed with the container type while every other tag is inserted
unchanged. -/
theorem claim_C2 :
    (∀ (fieldTypeOf : String → String) (vars : List String) (tag : String) (g : TagGroup),
      jsStartsWith tag "variable." = false →
      g.blockType ≠ "loop" → g.blockType ≠ "parallel" →
      2 ≤ (splitDot tag).length → (splitDot tag).getLast?.getD "" ∈ fileProperties →
      fieldTypeOf (((splitDot tag)[(splitDot tag).length - 2]?).getD "") = "files" →
      processTag fieldTypeOf vars tag (some g) =
        joinWithDot (splitDot tag).dropLast ++ "[0]." ++ (splitDot tag).getLast?.getD "") ∧
    (∀ (fieldTypeOf : String → String) (vars : List String) (tag : String) (g : TagGroup),
      jsStartsWith tag "variable." = false →
      g.blockType ≠ "loop" → g.blockType ≠ "parallel" →
      (¬ (2 ≤ (splitDot tag).length ∧ (splitDot tag).getLast?.getD "" ∈ fileProperties) ∨
        fieldTypeOf (((splitDot tag)[(splitDot tag).length - 2]?).getD "") ≠ "files") →
      processTag fieldTypeOf vars tag (some g) = tag) ∧
    (∀ (fieldTypeOf : String → String) (vars : List String) (tag : String),
      processTag fieldTypeOf vars tag none = tag) ∧
    (∀ (fieldTypeOf : String → String) (vars : List String) (tag : String) (g : TagGroup),
      jsStartsWith tag "variable." = false →
      (g.blockType = "loop" ∨ g.blockType = "parallel") →
      strContainsChar tag '.' = false → tag ∈ ["index", "currentItem", "items"] →
      processTag fieldTypeOf vars tag (some g) = g.blockType ++ "." ++ tag) ∧
    (∀ (fieldTypeOf : String → String) (vars : List String) (tag : String) (g : TagGroup),
      jsStartsWith tag "variable." = false →
      (g.blockType = "loop" ∨ g.blockType = "parallel") →
      ¬ (strContainsChar tag '.' = false ∧ tag ∈ ["index", "currentItem", "items"]) →
      processTag fieldTypeOf vars tag (some g) = tag) := by
  refine ⟨?_, ?_, ?_, ?_, ?_⟩
  · intro fieldTypeOf vars tag g hvar hl hp hlen hfile hty
    have hlp : ¬ (g.blockType = "loop" ∨ g.blockType = "parallel") := by
      simp [hl, hp]
    simp [processTag, hvar, hlp, hlen, hfile, hty]
  · intro fieldTypeOf vars tag g hvar hl hp hcond
    have hlp : ¬ (g.blockType = "loop" ∨ g.blockType = "parallel") := by
      simp [hl, hp]
    rcases hcond with hcond | hcond
    · simp [processTag, hvar, hlp, hcond]
    · by_cases hc : 2 ≤ (splitDot tag).length ∧ (splitDot tag).getLast?.getD "" ∈ fileProperties
      · simp [processTag, hvar, hlp, hc, hcond]
      · simp [processTag, hvar, hlp, hc]
  · intro fieldTypeOf vars tag
    by_cases hvar : jsStartsWith tag "variable." = true
    · by_cases hfound : (vars.any
          (fun v => normalizeVariableName v = (⟨tag.data.drop 9⟩ : String))) = true
      · simp [processTag, hvar, hfound]
      · simp only [Bool.not_eq_true] at hfound
        simp [processTag, hvar, hfound]
    · simp only [Bool.not_eq_true] at hvar
      simp [processTag, hvar]
  · intro fieldTypeOf vars tag g hvar hlp hdot hmem
    simp [processTag, hvar, hlp, hdot, hmem]
  · intro fieldTypeOf vars tag g hvar hlp hcond
    by_cases hdot : strContainsChar tag '.' = false
    · have hmem : tag ∉ (["index", "currentItem", "items"] : List String) := by
        intro hm
        exact hcond ⟨hdot, hm⟩
      by_cases hfile :
          2 ≤ (splitDot tag).length ∧ (splitDot tag).getLast?.getD "" ∈ fileProperties
      · simp [processTag, hvar, hlp, hdot, hmem, hfile]
      · simp [processTag, hvar, hlp, hdot, hmem, hfile]
    · simp only [Bool.not_eq_false] at hdot
      by_cases hfile :
          2 ≤ (splitDot tag).length ∧ (splitDot tag).getLast?.getD "" ∈ fileProperties
      · simp [processTag, hvar, hlp, hdot, hfile]
      · simp [processTag, hvar, hlp, hdot, hfile]

theorem claim_C2_witness :
    processTag (fun f => if f = "attachments" then "files" else "any") [] "block1.attachments.url"
        (some ⟨"Block 1", "b1", "agent", ["block1.attachments"], 0⟩) =
      joinWithDot (splitDot "block1.attachments.url").dropLast ++ "[0]." ++
        (splitDot "block1.attachments.url").getLast?.getD "" :=
  claim_C2.1 (fun f => if f = "attachments" then "files" else "any") [] "block1.attachments.url"
    ⟨"Block 1", "b1", "agent", ["block1.attachments"], 0⟩
    (by decide) (by decide) (by decide) (by decide) (by decide) (by decide)

/-- C3: the output-type deriver flattens the nested declaration
`{result: {type: "object", properties: {a: "string", b: {type: "number"}}}}`
into exactly the three duplicate-free entries `result : object`,
`result.a : string`, `result.b : number`; and in general an
`object`-with-`properties` (resp. `array`-with-`items.properties`)
declaration contributes an entry for the container node itself followed by
the recursively flattened entries of its children. -/
theorem claim_C3 :
    generateOutputPathsWithTypes exampleOutputs "" =
      [("result", "object"), ("result.a", "string"), ("result.b", "number")] ∧
    (generateOutputPathsWithTypes exampleOutputs "").length = 3 ∧
    ((generateOutputPathsWithTypes exampleOutputs "").map (fun e => e.1)).Nodup ∧
    (∀ (key : String) (fs : List (String × JSVal)) (pre : String),
      generateOutputPathsWithTypes
          [(key, .vobj [("type", .vstr "object"), ("properties", .vobj fs)])] pre =
        (dotPath pre key, "object") :: generateOutputPathsWithTypes fs (dotPath pre key)) ∧
    (∀ (key : String) (fs : List (String × JSVal)) (pre : String),
      generateOutputPathsWithTypes
          [(key, .vobj [("type", .vstr "array"),
            ("items", .vobj [("properties", .vobj fs)])])] pre =
        (dotPath pre key, "array") :: generateOutputPathsWithTypes fs (dotPath pre key)) := by
  have h1 : generateOutputPathsWithTypes exampleOutputs "" =
      [("result", "object"), ("result.a", "string"), ("result.b", "number")] := by decide
  refine ⟨h1, ?_, ?_, ?_, ?_⟩
  · rw [h1]; rfl
  · rw [h1]; decide
  · intro key fs pre
    obtain ⟨m, hm, hge⟩ : ∃ m,
        jsSizeFields [(key, JSVal.vobj [("type", JSVal.vstr "object"),
          ("properties", JSVal.vobj fs)])] = m + 1 ∧ jsSizeFields fs ≤ m := by
      refine ⟨jsSizeFields fs + 5, ?_, by omega⟩
      simp [jsSizeFields, jsSize]
      omega
    rw [generateOutputPathsWithTypes, hm]
    simp only [generateOutputPathsWithTypesF, lookupField, entriesOf, truthy]
    simp [generateOutputPathsWithTypes, lookupField, entriesOf, truthy]
    exact generateOutputPathsWithTypesF_congr m fs (dotPath pre key) (jsSizeFields fs)
      (by omega) le_rfl
  · intro key fs pre
    obtain ⟨m, hm, hge⟩ : ∃ m,
        jsSizeFields [(key, JSVal.vobj [("type", JSVal.vstr "array"),
          ("items", JSVal.vobj [("properties", JSVal.vobj fs)])])] = m + 1 ∧
        jsSizeFields fs ≤ m := by
      refine ⟨jsSizeFields fs + 7, ?_, by omega⟩
      simp [jsSizeFields, jsSize]
      omega
    rw [generateOutputPathsWithTypes, hm]
    simp only [generateOutputPathsWithTypesF, lookupField, getField, Option.bind, entriesOf,
      truthy]
    simp [generateOutputPathsWithTypes, lookupField, getField, entriesOf, truthy]
    exact generateOutputPathsWithTypesF_congr m fs (dotPath pre key) (jsSizeFields fs)
      (by omega) le_rfl

/-! ### Index lemmas for the delimiter search -/

theorem lastIdx_lt_length {l : List Char} {c : Char} {i : Nat}
    (h : lastIdx l c = some i) : i < l.length := by
  induction l generalizing i with
  | nil => simp [lastIdx] at h
  | cons x xs ih =>
    rw [lastIdx] at h
    cases hx : lastIdx xs c with
    | some j =>
      rw [hx] at h
      injection h with h
      subst h
      have := ih hx
      simp
      omega
    | none =>
      rw [hx] at h
      by_cases hc : x = c
      · simp [hc] at h
        subst h
        simp
      · simp [hc] at h

theorem lastIdx_get {l : List Char} {c : Char} {i : Nat}
    (h : lastIdx l c = some i) : l.get? i = some c := by
  induction l generalizing i with
  | nil => simp [lastIdx] at h
  | cons x xs ih =>
    rw [lastIdx] at h
    cases hx : lastIdx xs c with
    | some j =>
      rw [hx] at h
      injection h with h
      subst h
      simpa using ih hx
    | none =>
      rw [hx] at h
      by_cases hc : x = c
      · simp [hc] at h
        subst h
        simp [hc]
      · simp [hc] at h

theorem lastIdx_none {l : List Char} {c : Char} (h : lastIdx l c = none) :
    ∀ j, l.get? j ≠ some c := by
  induction l with
  | nil => intro j; simp
  | cons x xs ih =>
    rw [lastIdx] at h
    cases hx : lastIdx xs c with
    | some j => rw [hx] at h; simp at h
    | none =>
      rw [hx] at h
      by_cases hc : x = c
      · simp [hc] at h
      · intro j
        cases j with
        | zero => simpa using hc
        | succ j => simpa using ih hx j

theorem lastIdx_max {l : List Char} {c : Char} {i : Nat}
    (h : lastIdx l c = some i) : ∀ j, i < j → l.get? j ≠ some c := by
  induction l generalizing i with
  | nil => simp [lastIdx] at h
  | cons x xs ih =>
    rw [lastIdx] at h
    cases hx : lastIdx xs c with
    | some k =>
      rw [hx] at h
      injection h with h
      subst h
      intro j hj
      cases j with
      | zero => omega
      | succ j =>
        have : k < j := by omega
        simpa using ih hx j this
    | none =>
      rw [hx] at h
      by_cases hc : x = c
      · simp [hc] at h
        subst h
        intro j hj
        cases j with
        | zero => omega
        | succ j => simpa using lastIdx_none hx j
      · simp [hc] at h

theorem lastIdx_append_last (l : List Char) (c : Char) :
    lastIdx (l ++ [c]) c = some l.length := by
  induction l with
  | nil => simp [lastIdx]
  | cons x xs ih => simp [lastIdx, ih]

theorem firstIdx_get {l : List Char} {c : Char} {i : Nat}
    (h : firstIdx l c = some i) : l.get? i = some c := by
  induction l generalizing i with
  | nil => simp [firstIdx] at h
  | cons x xs ih =>
    rw [firstIdx] at h
    by_cases hc : x = c
    · simp [hc] at h
      subst h
      simp [hc]
    · simp [hc] at h
      cases hx : firstIdx xs c with
      | some j =>
        rw [hx] at h
        simp at h
        subst h
        simpa using ih hx
      | none => rw [hx] at h; simp at h

theorem firstIdx_min {l : List Char} {c : Char} {i : Nat}
    (h : firstIdx l c = some i) : ∀ j, j < i → l.get? j ≠ some c := by
  induction l generalizing i with
  | nil => simp [firstIdx] at h
  | cons x xs ih =>
    rw [firstIdx] at h
    by_cases hc : x = c
    · simp [hc] at h
      subst h
      omega
    · simp [hc] at h
      cases hx : firstIdx xs c with
      | some k =>
        rw [hx] at h
        simp at h
        subst h
        intro j hj
        cases j with
        | zero => simpa using hc
        | succ j =>
          have : j < k := by omega
          simpa using ih hx j this
      | none => rw [hx] at h; simp at h

/-- C5: round-trip idempotence of tag insertion — for every text, cursor with
an opening delimiter before it, and tag, inserting the tag and placing the
cursor immediately after the inserted closing delimiter leaves no pending
unterminated opening delimiter: `checkTagTrigger` reports `show = false`. -/
theorem claim_C5 (text : List Char) (cursorPosition : Nat) (processedTag : List Char)
    (lastOpen : Nat) (newText : List Char)
    (hopen : lastIdx (text.take cursorPosition) '<' = some lastOpen)
    (hins : insertTag text cursorPosition processedTag = some newText) :
    checkTagTrigger newText (lastOpen + processedTag.length + 2) = false := by
  simp only [insertTag, hopen, Option.some.injEq] at hins
  have hplen : ((text.take cursorPosition).take lastOpen).length = lastOpen := by
    have h1 := lastIdx_lt_length hopen
    simp only [List.length_take] at h1 ⊢
    omega
  set pre := (text.take cursorPosition).take lastOpen with hpre
  set rem := consumeAfter (text.drop cursorPosition) with hrem
  set A := (pre ++ '<' :: processedTag) ++ ['>'] with hA
  have hnewText : newText = A ++ rem := by
    rw [← hins, hA]
    simp
  have hAlen : A.length = lastOpen + processedTag.length + 2 := by
    rw [hA]
    simp [hplen]
    omega
  have htake : newText.take (lastOpen + processedTag.length + 2) = A := by
    rw [hnewText, ← hAlen, List.take_left]
  have hclose : lastIdx A '>' = some (lastOpen + processedTag.length + 1) := by
    have := lastIdx_append_last (pre ++ '<' :: processedTag) '>'
    rw [← hA] at this
    rw [this]
    simp [hplen]
    omega
  simp only [checkTagTrigger]
  rw [if_pos (show 1 ≤ lastOpen + processedTag.length + 2 by omega), htake, hclose]
  cases hlt : lastIdx A '<' with
  | none => rfl
  | some o =>
    have ho1 : o < A.length := lastIdx_lt_length hlt
    have ho2 : o ≠ lastOpen + processedTag.length + 1 := by
      intro hcon
      have hgetLt := lastIdx_get hlt
      have hgetGt : A.get? (lastOpen + processedTag.length + 1) = some '>' := by
        have hlen2 : (pre ++ '<' :: processedTag).length =
            lastOpen + processedTag.length + 1 := by
          simp [hplen]
          omega
        rw [hA, ← hlen2]
        exact List.get?_concat_length _ '>'
      rw [hcon, hgetGt] at hgetLt
      simp at hgetLt
    rw [hAlen] at ho1
    simp only [decide_eq_false_iff_not]
    omega

theorem claim_C5_witness :
    checkTagTrigger ['a', '<', 'x', '>'] 4 = false :=
  claim_C5 ['a', '<', 'b'] 3 ['x'] 1 ['a', '<', 'x', '>'] (by decide) (by decide)

/-- C6: tag insertion is a no-op when no `<` precedes the cursor.  When the
dropdown trigger condition holds, the last `<` before the cursor is an
unterminated opening delimiter (no `>` and no later `<` follow it before the
cursor), and insertion replaces the span from it to the cursor with the tag
wrapped in delimiters.  An already-typed `>` after the cursor (the first one,
at position `nc`) is consumed exactly when the text between the cursor and it
consists only of valid reference characters. -/
theorem claim_C6 :
    (∀ (text : List Char) (cursorPosition : Nat) (processedTag : List Char),
      lastIdx (text.take cursorPosition) '<' = none →
      insertTag text cursorPosition processedTag = none) ∧
    (∀ (text : List Char) (cursorPosition : Nat) (processedTag : List Char),
      checkTagTrigger text cursorPosition = true →
      ∃ o, lastIdx (text.take cursorPosition) '<' = some o ∧
        (text.take cursorPosition).get? o = some '<' ∧
        (∀ j, o < j → (text.take cursorPosition).get? j ≠ some '>') ∧
        (∀ j, o < j → (text.take cursorPosition).get? j ≠ some '<') ∧
        insertTag text cursorPosition processedTag =
          some ((text.take cursorPosition).take o ++
            '<' :: (processedTag ++ '>' :: consumeAfter (text.drop cursorPosition)))) ∧
    (∀ (textAfterCursor : List Char) (nc : Nat),
      firstIdx textAfterCursor '>' = some nc →
      textAfterCursor.get? nc = some '>' ∧
      (∀ j, j < nc → textAfterCursor.get? j ≠ some '>') ∧
      ((textAfterCursor.take nc).all validRefChar = true →
        consumeAfter textAfterCursor = textAfterCursor.drop (nc + 1)) ∧
      ((textAfterCursor.take nc).all validRefChar = false →
        consumeAfter textAfterCursor = textAfterCursor)) ∧
    (∀ textAfterCursor : List Char,
      firstIdx textAfterCursor '>' = none → consumeAfter textAfterCursor = textAfterCursor) := by
  refine ⟨?_, ?_, ?_, ?_⟩
  · intro text cursorPosition processedTag hnone
    simp [insertTag, hnone]
  · intro text cursorPosition processedTag htrig
    simp only [checkTagTrigger] at htrig
    by_cases hcur : 1 ≤ cursorPosition
    · rw [if_pos hcur] at htrig
      cases hopen : lastIdx (text.take cursorPosition) '<' with
      | none => rw [hopen] at htrig; cases hclose : lastIdx (text.take cursorPosition) '>' <;>
          rw [hclose] at htrig <;> simp at htrig
      | some o =>
        refine ⟨o, rfl, lastIdx_get hopen, ?_, lastIdx_max hopen, ?_⟩
        · rw [hopen] at htrig
          cases hclose : lastIdx (text.take cursorPosition) '>' with
          | none => exact fun j _ => lastIdx_none hclose j
          | some cc =>
            rw [hclose] at htrig
            simp at htrig
            intro j hj
            exact lastIdx_max hclose j (by omega)
        · simp [insertTag, hopen]
    · rw [if_neg hcur] at htrig
      simp at htrig
  · intro textAfterCursor nc hfirst
    refine ⟨firstIdx_get hfirst, firstIdx_min hfirst, ?_, ?_⟩
    · intro hvalid
      simp [consumeAfter, hfirst, hvalid]
    · intro hvalid
      simp [consumeAfter, hfirst, hvalid]
  · intro textAfterCursor hnone
    simp [consumeAfter, hnone]

theorem claim_C6_witness :
    insertTag ['a', 'b'] 2 ['x'] = none ∧
    (∃ o, lastIdx (List.take 3 ['a', '<', 'b', 'c']) '<' = some o ∧
      (List.take 3 ['a', '<', 'b', 'c']).get? o = some '<' ∧
      (∀ j, o < j → (List.take 3 ['a', '<', 'b', 'c']).get? j ≠ some '>') ∧
      (∀ j, o < j → (List.take 3 ['a', '<', 'b', 'c']).get? j ≠ some '<') ∧
      insertTag ['a', '<', 'b', 'c'] 3 ['x'] =
        some ((List.take 3 ['a', '<', 'b', 'c']).take o ++
          '<' :: (['x'] ++ '>' :: consumeAfter (List.drop 3 ['a', '<', 'b', 'c'])))) ∧
    consumeAfter ['c', 'd', '>', 'e'] = ['e'] ∧
    consumeAfter ['!', '>', 'e'] = ['!', '>', 'e'] := by
  refine ⟨?_, ?_, ?_, ?_⟩
  · exact claim_C6.1 ['a', 'b'] 2 ['x'] (by decide)
  · exact claim_C6.2.1 ['a', '<', 'b', 'c'] 3 ['x'] (by decide)
  · exact (claim_C6.2.2.1 ['c', 'd', '>', 'e'] 2 (by decide)).2.2.1 (by decide)
  · exact (claim_C6.2.2.1 ['!', '>', 'e'] 1 (by decide)).2.2.2 (by decide)

/-- C1: the tag groups built from the accessible-prefix set never contain the
requesting block itself — whatever accessible set is supplied, blocks cannot
reference their own outputs. -/
theorem claim_C1 (env : Env) (blockId : String)
    (containingLoopBlockId containingParallelBlockId : Option String)
    (blockDistances : List (String × Nat)) (accessibleBlockIds : List String) :
    ∀ g ∈ buildGroups env blockId containingLoopBlockId containingParallelBlockId
        blockDistances accessibleBlockIds, g.blockId ≠ blockId := by
  induction accessibleBlockIds with
  | nil => intro g hg; simp [buildGroups] at hg
  | cons aid rest ih =>
    intro g hg
    rw [buildGroups] at hg
    cases hb : lookupAssoc env.blocks aid with
    | none =>
      simp only [hb] at hg
      exact ih g hg
    | some ab =>
      simp only [hb] at hg
      by_cases heq : aid = blockId
      · rw [if_pos heq] at hg
        exact ih g hg
      · rw [if_neg heq] at hg
        cases hc : env.getBlock ab.type with
        | none =>
          simp only [hc] at hg
          by_cases hlp : ab.type = "loop" ∨ ab.type = "parallel"
          · rw [if_pos hlp] at hg
            by_cases hcont : containingLoopBlockId = some aid ∨
                containingParallelBlockId = some aid
            · rw [if_pos hcont] at hg
              exact ih g hg
            · rw [if_neg hcont] at hg
              rcases List.mem_cons.mp hg with h | h
              · subst h
                simpa using heq
              · exact ih g h
          · rw [if_neg hlp] at hg
            exact ih g hg
        | some cfg =>
          simp only [hc] at hg
          rcases List.mem_cons.mp hg with h | h
          · subst h
            simpa using heq
          · exact ih g h

theorem claim_C1_witness :
    (⟨"A", "a", "agent", ["a.result"], 0⟩ : TagGroup).blockId ≠ "b" :=
  claim_C1 envW "b" none none [] ["a", "b"] ⟨"A", "a", "agent", ["a.result"], 0⟩ (by decide)

/-! ### Sorting lemmas for the final group order -/

theorem sortInsert_perm (g : TagGroup) (l : List TagGroup) :
    (sortInsert g l).Perm (g :: l) := by
  induction l with
  | nil => simp [sortInsert]
  | cons h t ih =>
    rw [sortInsert]
    by_cases hd : h.distance ≤ g.distance
    · rw [if_pos hd]
      exact (ih.cons h).trans (List.Perm.swap g h t)
    · rw [if_neg hd]

theorem sortByDistance_perm (l : List TagGroup) : (sortByDistance l).Perm l := by
  induction l with
  | nil => simp [sortByDistance]
  | cons h t ih =>
    rw [sortByDistance]
    exact (sortInsert_perm h (sortByDistance t)).trans (ih.cons h)

theorem sortInsert_pairwise (g : TagGroup) (l : List TagGroup)
    (hl : List.Pairwise (fun a b => a.distance ≤ b.distance) l) :
    List.Pairwise (fun a b => a.distance ≤ b.distance) (sortInsert g l) := by
  induction l with
  | nil => simp [sortInsert]
  | cons h t ih =>
    rw [sortInsert]
    rw [List.pairwise_cons] at hl
    by_cases hd : h.distance ≤ g.distance
    · rw [if_pos hd]
      rw [List.pairwise_cons]
      constructor
      · intro x hx
        have hx2 := (sortInsert_perm g t).mem_iff.mp hx
        rcases List.mem_cons.mp hx2 with rfl | hx3
        · exact hd
        · exact hl.1 x hx3
      · exact ih hl.2
    · rw [if_neg hd]
      rw [List.pairwise_cons]
      constructor
      · intro x hx
        rcases List.mem_cons.mp hx with rfl | hx3
        · omega
        · have := hl.1 x hx3
          omega
      · exact List.pairwise_cons.mpr hl

theorem sortByDistance_pairwise (l : List TagGroup) :
    List.Pairwise (fun a b => a.distance ≤ b.distance) (sortByDistance l) := by
  induction l with
  | nil => simp [sortByDistance]
  | cons h t ih =>
    rw [sortByDistance]
    exact sortInsert_pairwise h (sortByDistance t) ih

theorem pairwise_of_all_zero (l : List TagGroup) (h : ∀ g ∈ l, g.distance = 0) :
    List.Pairwise (fun a b => a.distance ≤ b.distance) l := by
  induction l with
  | nil => simp
  | cons x t ih =>
    rw [List.pairwise_cons]
    constructor
    · intro y hy
      rw [h x (List.mem_cons_self x t), h y (List.mem_cons_of_mem x hy)]
    · exact ih (fun g hg => h g (List.mem_cons_of_mem x hg))

/-- C7: in the flat ordered tag list, all variable tags appear first (they
are a prefix), and the final group sequence is a distance-sorted permutation
of the contextual and accessible groups: whenever group `g1` appears before
group `g2`, `g1.distance ≤ g2.distance`, and `g1`'s visual tags appear as a
block before `g2`'s visual tags, both after all variable tags. -/
theorem claim_C7 (variableTags : List String)
    (loopBlockGroup parallelBlockGroup : Option TagGroup) (accGroups : List TagGroup)
    (hctx : ∀ g ∈ loopBlockGroup.toList ++ parallelBlockGroup.toList, g.distance = 0) :
    List.IsPrefix variableTags
      (orderedTagsDef variableTags (finalGroups loopBlockGroup parallelBlockGroup accGroups)) ∧
    List.Pairwise (fun a b => a.distance ≤ b.distance)
      (finalGroups loopBlockGroup parallelBlockGroup accGroups) ∧
    (finalGroups loopBlockGroup parallelBlockGroup accGroups).Perm
      (loopBlockGroup.toList ++ parallelBlockGroup.toList ++ accGroups) ∧
    (∀ (pre mid post : List TagGroup) (g1 g2 : TagGroup),
      finalGroups loopBlockGroup parallelBlockGroup accGroups =
        pre ++ g1 :: (mid ++ g2 :: post) →
      g1.distance ≤ g2.distance ∧
      ∃ l1 l2 l3,
        orderedTagsDef variableTags (finalGroups loopBlockGroup parallelBlockGroup accGroups) =
          l1 ++ (visualTagsOfGroup g1 ++ (l2 ++ (visualTagsOfGroup g2 ++ l3))) ∧
        variableTags.length ≤ l1.length) := by
  have hsplit : finalGroups loopBlockGroup parallelBlockGroup accGroups =
      (loopBlockGroup.toList ++ parallelBlockGroup.toList) ++ sortByDistance accGroups := by
    simp [finalGroups]
  have hpw : List.Pairwise (fun a b => a.distance ≤ b.distance)
      (finalGroups loopBlockGroup parallelBlockGroup accGroups) := by
    rw [hsplit]
    rw [List.pairwise_append]
    refine ⟨pairwise_of_all_zero _ hctx, sortByDistance_pairwise accGroups, ?_⟩
    intro a ha b _
    rw [hctx a ha]
    omega
  refine ⟨List.prefix_append variableTags _, hpw, ?_, ?_⟩
  · rw [hsplit]
    calc (loopBlockGroup.toList ++ parallelBlockGroup.toList) ++ sortByDistance accGroups
        |>.Perm ((loopBlockGroup.toList ++ parallelBlockGroup.toList) ++ accGroups) :=
          (sortByDistance_perm accGroups).append_left _
      _ = loopBlockGroup.toList ++ parallelBlockGroup.toList ++ accGroups := by
          rw [List.append_assoc]
  · intro pre mid post g1 g2 hfg
    constructor
    · have hsub : [g1, g2].Sublist (finalGroups loopBlockGroup parallelBlockGroup accGroups) := by
        rw [hfg]
        refine List.Sublist.trans ?_ (List.sublist_append_right pre _)
        refine List.Sublist.cons₂ g1 ?_
        refine List.Sublist.trans ?_ (List.sublist_append_right mid _)
        exact List.Sublist.cons₂ g2 (List.nil_sublist post)
      have := hpw.sublist hsub
      rw [List.pairwise_cons] at this
      exact this.1 g2 (List.mem_singleton.mpr rfl)
    · refine ⟨variableTags ++ (pre.map visualTagsOfGroup).flatten,
        (mid.map visualTagsOfGroup).flatten, (post.map visualTagsOfGroup).flatten, ?_, by simp⟩
      rw [orderedTagsDef, hfg]
      simp [List.map_append, List.flatten_append, List.append_assoc]

theorem claim_C7_witness :
    ((⟨"Loop 1", "loop1", "loop", ["index", "currentIteration"], 0⟩ : TagGroup).distance ≤
      (⟨"A", "a", "agent", ["a.result"], 1⟩ : TagGroup).distance) ∧
    ∃ l1 l2 l3,
      orderedTagsDef ["variable.x"]
          (finalGroups (some ⟨"Loop 1", "loop1", "loop", ["index", "currentIteration"], 0⟩) none
            [⟨"A", "a", "agent", ["a.result"], 1⟩]) =
        l1 ++ (visualTagsOfGroup ⟨"Loop 1", "loop1", "loop", ["index", "currentIteration"], 0⟩ ++
          (l2 ++ (visualTagsOfGroup (⟨"A", "a", "agent", ["a.result"], 1⟩ : TagGroup) ++ l3))) ∧
      (["variable.x"] : List String).length ≤ l1.length :=
  (claim_C7 ["variable.x"] (some ⟨"Loop 1", "loop1", "loop", ["index", "currentIteration"], 0⟩)
    none [⟨"A", "a", "agent", ["a.result"], 1⟩] (by decide)).2.2.2 [] [] []
    ⟨"Loop 1", "loop1", "loop", ["index", "currentIteration"], 0⟩
    ⟨"A", "a", "agent", ["a.result"], 1⟩ (by decide)

theorem jsEqStr_default {v : JSVal} {dflt s : String} (hne : dflt ≠ s) (hs : s ≠ "") :
    jsEqStr (if truthy v then v else .vstr dflt) s = jsEqStr v s := by
  have hs2 : ("" : String) ≠ s := fun h => hs h.symm
  by_cases ht : truthy v = true
  · rw [if_pos ht]
  · rw [if_neg ht]
    cases v with
    | vstr t =>
      simp [truthy] at ht
      subst ht
      simp [jsEqStr, hne, hs2]
    | vundefined => simp [jsEqStr, hne]
    | vnull => simp [jsEqStr, hne]
    | vbool b => simp [jsEqStr, hne]
    | vnum n => simp [jsEqStr, hne]
    | varr xs => simp [jsEqStr, hne]
    | vobj fs => simp [jsEqStr, hne]

/-- C8: loop contextual groups are produced only for the loop block itself or
for members of a loop; parallel contextual groups only for members of a
parallel.  A loop contributes `index` and `currentIteration` always and
`currentItem`/`items` exactly when `loopType` is `forEach`; a parallel
contributes `index` always and `currentItem`/`items` exactly when
`parallelType` is `collection`.  In the `starter -> A -> loop{B} -> C`
scenario (with `B` the loop's member and a spec-modelled accessible set) the
groups computed for `B` are exactly: the loop's contextual group with all
four tags, the starter's group, and `A`'s group with `A`'s outputs — no group
for `C` and none for `B` itself. -/
theorem claim_C8 :
    (∀ (blocks : List (String × Block)) (loops : List (String × LoopCfg)) (blockId : String)
        (g : TagGroup) (cid : Option String),
      loopContext blocks loops blockId = (some g, cid) →
      g.blockType = "loop" ∧ g.distance = 0 ∧
      ∃ l, (g.blockId, l) ∈ loops ∧ (g.blockId = blockId ∨ blockId ∈ l.nodes) ∧
        g.tags = loopContextualTags l.loopType) ∧
    (∀ (blocks : List (String × Block)) (parallels : List (String × ParallelCfg))
        (blockId : String) (g : TagGroup) (cid : Option String),
      parallelContext blocks parallels blockId = (some g, cid) →
      g.blockType = "parallel" ∧ g.distance = 0 ∧
      ∃ p, (g.blockId, p) ∈ parallels ∧ blockId ∈ p.nodes ∧
        g.tags = parallelContextualTags p.parallelType) ∧
    (∀ lt : JSVal, "index" ∈ loopContextualTags lt ∧
      "currentIteration" ∈ loopContextualTags lt ∧
      ("currentItem" ∈ loopContextualTags lt ↔ jsEqStr lt "forEach" = true) ∧
      ("items" ∈ loopContextualTags lt ↔ jsEqStr lt "forEach" = true)) ∧
    (∀ pt : JSVal, "index" ∈ parallelContextualTags pt ∧
      ("currentItem" ∈ parallelContextualTags pt ↔ jsEqStr pt "collection" = true) ∧
      ("items" ∈ parallelContextualTags pt ↔ jsEqStr pt "collection" = true)) ∧
    scenFinalGroups =
      [⟨"Loop 1", "loop1", "loop", ["index", "currentIteration", "currentItem", "items"], 0⟩,
       ⟨"Start", "starter1", "starter", [], 0⟩,
       ⟨"Block A", "A", "agent", ["blocka.result"], 1⟩] ∧
    (scenFinalGroups.all (fun g => g.blockId != "C" && g.blockId != "B")) = true := by
  have hcontaining : ∀ (blocks : List (String × Block)) (loops : List (String × LoopCfg))
      (blockId : String) (g : TagGroup) (cid : Option String),
      (match loops.find? (fun e => blockId ∈ e.2.nodes) with
       | some (loopId, loop) =>
         ((match lookupAssoc blocks loopId with
           | some containingLoopBlock =>
             some { blockName := displayName containingLoopBlock, blockId := loopId,
                    blockType := "loop", tags := loopContextualTags loop.loopType,
                    distance := 0 }
           | none => none : Option TagGroup), (some loopId : Option String))
       | none => ((none : Option TagGroup), (none : Option String))) = (some g, cid) →
      g.blockType = "loop" ∧ g.distance = 0 ∧
      ∃ l, (g.blockId, l) ∈ loops ∧ (g.blockId = blockId ∨ blockId ∈ l.nodes) ∧
        g.tags = loopContextualTags l.loopType := by
    intro blocks loops blockId g cid h
    cases hc : loops.find? (fun e => blockId ∈ e.2.nodes) with
    | none => simp only [hc] at h; simp at h
    | some e =>
      cases e with
      | mk loopId loop =>
        simp only [hc] at h
        cases hlb : lookupAssoc blocks loopId with
        | none => simp only [hlb] at h; simp at h
        | some lb =>
          simp only [hlb, Prod.mk.injEq, Option.some.injEq] at h
          obtain ⟨hg, _⟩ := h
          subst hg
          refine ⟨rfl, rfl, loop, List.mem_of_find?_eq_some hc, Or.inr ?_, rfl⟩
          have := List.find?_some hc
          simpa using this
  refine ⟨?_, ?_, ?_, ?_, by decide, by decide⟩
  · intro blocks loops blockId g cid h
    cases hb : lookupAssoc blocks blockId with
    | none =>
      simp only [loopContext, hb] at h
      exact hcontaining blocks loops blockId g cid h
    | some b =>
      by_cases hbt : b.type = "loop"
      · simp only [loopContext, hb, hbt, beq_self_eq_true, if_true] at h
        cases hcl : lookupAssoc loops blockId with
        | some cl =>
          simp only [hcl, hb, Prod.mk.injEq, Option.some.injEq] at h
          obtain ⟨hg, _⟩ := h
          subst hg
          exact ⟨rfl, rfl, cl, lookupAssoc_mem hcl, Or.inl rfl, rfl⟩
        | none =>
          simp only [hcl] at h
          exact hcontaining blocks loops blockId g cid h
      · have hbeq : (b.type == "loop") = false := by
          simp [hbt]
        simp only [loopContext, hb, hbeq, Bool.false_eq_true, if_false] at h
        exact hcontaining blocks loops blockId g cid h
  · intro blocks parallels blockId g cid h
    cases hc : parallels.find? (fun e => blockId ∈ e.2.nodes) with
    | none => simp only [parallelContext, hc] at h; simp at h
    | some e =>
      cases e with
      | mk parallelId parallel =>
        simp only [parallelContext, hc] at h
        cases hlb : lookupAssoc blocks parallelId with
        | none => simp only [hlb] at h; simp at h
        | some pb =>
          simp only [hlb, Prod.mk.injEq, Option.some.injEq] at h
          obtain ⟨hg, _⟩ := h
          subst hg
          refine ⟨rfl, rfl, parallel, List.mem_of_find?_eq_some hc, ?_, rfl⟩
          have := List.find?_some hc
          simpa using this
  · intro lt
    rw [loopContextualTags,
      jsEqStr_default (by decide : ("for" : String) ≠ "forEach") (by decide)]
    by_cases hfe : jsEqStr lt "forEach" = true
    · simp [hfe]
    · simp only [Bool.not_eq_true] at hfe
      simp [hfe]
  · intro pt
    rw [parallelContextualTags,
      jsEqStr_default (by decide : ("count" : String) ≠ "collection") (by decide)]
    by_cases hfe : jsEqStr pt "collection" = true
    · simp [hfe]
    · simp only [Bool.not_eq_true] at hfe
      simp [hfe]

theorem claim_C8_witness :
    (⟨"Loop 1", "loop1", "loop", ["index", "currentIteration", "currentItem", "items"], 0⟩ :
        TagGroup).blockType = "loop" ∧
    (⟨"Loop 1", "loop1", "loop", ["index", "currentIteration", "currentItem", "items"], 0⟩ :
        TagGroup).distance = 0 ∧
    ∃ l, ((⟨"Loop 1", "loop1", "loop",
          ["index", "currentIteration", "currentItem", "items"], 0⟩ : TagGroup).blockId, l) ∈
        scenLoops ∧
      ((⟨"Loop 1", "loop1", "loop", ["index", "currentIteration", "currentItem", "items"], 0⟩ :
          TagGroup).blockId = "B" ∨ "B" ∈ l.nodes) ∧
      (⟨"Loop 1", "loop1", "loop", ["index", "currentIteration", "currentItem", "items"], 0⟩ :
          TagGroup).tags = loopContextualTags l.loopType :=
  claim_C8.1 scenBlocks scenLoops "B"
    ⟨"Loop 1", "loop1", "loop", ["index", "currentIteration", "currentItem", "items"], 0⟩
    (some "loop1") (by decide)

/-! ### BFS lemmas -/

theorem filter_notMem_cons_le (U visited : List String) (id : String) :
    (U.filter (fun x => decide (x ∉ id :: visited))).length ≤
      (U.filter (fun x => decide (x ∉ visited))).length := by
  induction U with
  | nil => simp
  | cons u rest ih =>
    simp only [List.filter_cons]
    by_cases h1 : u ∉ id :: visited
    · have h2 : u ∉ visited := fun hv => h1 (List.mem_cons_of_mem id hv)
      rw [decide_eq_true h1, decide_eq_true h2]
      simp only [eq_self_iff_true, if_true, List.length_cons]
      omega
    · rw [decide_eq_false h1]
      by_cases h2 : u ∉ visited
      · rw [decide_eq_true h2]
        simp only [Bool.false_eq_true, if_false, eq_self_iff_true, if_true, List.length_cons]
        omega
      · rw [decide_eq_false h2]
        simp only [Bool.false_eq_true, if_false]
        exact ih

theorem filter_notMem_cons_lt (U visited : List String) (id : String)
    (hmem : id ∈ U) (hnv : id ∉ visited) :
    (U.filter (fun x => decide (x ∉ id :: visited))).length <
      (U.filter (fun x => decide (x ∉ visited))).length := by
  induction U with
  | nil => simp at hmem
  | cons u rest ih =>
    simp only [List.filter_cons]
    by_cases hu : u = id
    · subst hu
      have h1 : ¬ u ∉ u :: visited := fun h => h (List.mem_cons_self u visited)
      rw [decide_eq_false h1, decide_eq_true hnv]
      simp only [Bool.false_eq_true, if_false, eq_self_iff_true, if_true, List.length_cons]
      have := filter_notMem_cons_le rest visited u
      omega
    · rcases List.mem_cons.mp hmem with h | h
      · exact absurd h.symm hu
      · have hstep := ih h
        by_cases h2 : u ∉ visited
        · have h1 : u ∉ id :: visited := by
            intro hm
            rcases List.mem_cons.mp hm with h3 | h3
            · exact hu h3
            · exact h2 h3
          rw [decide_eq_true h1, decide_eq_true h2]
          simp only [eq_self_iff_true, if_true, List.length_cons]
          omega
        · have h1 : ¬ u ∉ id :: visited := by
            intro hcon
            exact hcon (List.mem_cons_of_mem id (not_not.mp h2))
          rw [decide_eq_false h1, decide_eq_false h2]
          simp only [Bool.false_eq_true, if_false]
          exact hstep

/-- The BFS worklist loop always terminates: for every state whose queue ids
lie in a universe `U` closed over edge targets, some finite fuel completes
the loop.  (This is the cycle-safety of the `while` loop: visited nodes are
skipped at dequeue, so each node is processed at most once.) -/
theorem bfsAux_terminates (edges : List EdgeT) (U : List String)
    (hU : ∀ e ∈ edges, e.target ∈ U) :
    ∀ (n q : Nat) (queue : List (String × Nat)) (visited : List String)
      (dist : List (String × Nat)) (log : List (String × Bool)),
      (U.filter (fun x => decide (x ∉ visited))).length ≤ n →
      queue.length ≤ q →
      (∀ p ∈ queue, p.1 ∈ U) →
      ∃ fuel res, bfsAux edges fuel queue visited dist log = some res := by
  intro n
  induction n with
  | zero =>
    intro q
    induction q with
    | zero =>
      intro queue visited dist log hn hq hmem
      cases queue with
      | nil => exact ⟨0, (dist, log), rfl⟩
      | cons p rest => simp at hq
    | succ q ihq =>
      intro queue visited dist log hn hq hmem
      cases queue with
      | nil => exact ⟨0, (dist, log), rfl⟩
      | cons p rest =>
        cases p with
        | mk id d =>
          by_cases hid : id ∈ visited
          · obtain ⟨fuel, res, hres⟩ := ihq rest visited dist log hn
              (by simp at hq; omega) (fun p hp => hmem p (List.mem_cons_of_mem _ hp))
            exact ⟨fuel + 1, res, by simp [bfsAux, hid, hres]⟩
          · exfalso
            have hidU : id ∈ U := hmem (id, d) (List.mem_cons_self _ _)
            have := filter_notMem_cons_lt U visited id hidU hid
            omega
  | succ n ihn =>
    intro q
    induction q with
    | zero =>
      intro queue visited dist log hn hq hmem
      cases queue with
      | nil => exact ⟨0, (dist, log), rfl⟩
      | cons p rest => simp at hq
    | succ q ihq =>
      intro queue visited dist log hn hq hmem
      cases queue with
      | nil => exact ⟨0, (dist, log), rfl⟩
      | cons p rest =>
        cases p with
        | mk id d =>
          by_cases hid : id ∈ visited
          · obtain ⟨fuel, res, hres⟩ := ihq rest visited dist log hn
              (by simp at hq; omega) (fun p hp => hmem p (List.mem_cons_of_mem _ hp))
            exact ⟨fuel + 1, res, by simp [bfsAux, hid, hres]⟩
          · have hidU : id ∈ U := hmem (id, d) (List.mem_cons_self _ _)
            have hdec := filter_notMem_cons_lt U visited id hidU hid
            set outgoing := (edges.filter (fun e => e.source = id)).map (·.target) with hout
            have hmem2 : ∀ p ∈ rest ++ outgoing.map (fun t => (t, d + 1)), p.1 ∈ U := by
              intro p hp
              rcases List.mem_append.mp hp with h | h
              · exact hmem p (List.mem_cons_of_mem _ h)
              · obtain ⟨t, ht, rfl⟩ := List.mem_map.mp h
                obtain ⟨e, he, rfl⟩ := List.mem_map.mp (hout ▸ ht)
                exact hU e (List.mem_of_mem_filter he)
            obtain ⟨fuel, res, hres⟩ := ihn (rest ++ outgoing.map (fun t => (t, d + 1))).length
              (rest ++ outgoing.map (fun t => (t, d + 1))) (id :: visited)
              (dist ++ [(id, d)])
              (log ++ outgoing.map (fun t => (t, decide (t ∈ id :: visited))))
              (by omega) le_rfl hmem2
            have hstep : bfsAux edges (fuel + 1) ((id, d) :: rest) visited dist log =
                bfsAux edges fuel (rest ++ outgoing.map (fun t => (t, d + 1))) (id :: visited)
                  (dist ++ [(id, d)])
                  (log ++ outgoing.map (fun t => (t, decide (t ∈ id :: visited)))) := by
              rw [bfsAux, if_neg hid]
            exact ⟨fuel + 1, res, hstep.trans hres⟩

/-- State invariants of the BFS loop: whenever it returns, every recorded
distance belongs to a reachable node, each node is recorded at most once
(first visit wins), and every reachable node is recorded. -/
theorem bfsAux_props (edges : List EdgeT) (root : String) :
    ∀ (fuel : Nat) (queue : List (String × Nat)) (visited : List String)
      (dist : List (String × Nat)) (log : List (String × Bool))
      (res : List (String × Nat) × List (String × Bool)),
      bfsAux edges fuel queue visited dist log = some res →
      (∀ p ∈ queue, ReachableFrom edges root p.1) →
      (∀ v ∈ visited, ReachableFrom edges root v) →
      dist.map Prod.fst = visited.reverse →
      visited.Nodup →
      (∀ v ∈ visited, ∀ e ∈ edges, e.source = v →
        e.target ∈ visited ∨ e.target ∈ queue.map Prod.fst) →
      (root ∈ visited ∨ root ∈ queue.map Prod.fst) →
      (∀ id d, (id, d) ∈ res.1 → ReachableFrom edges root id) ∧
      (res.1.map Prod.fst).Nodup ∧
      (∀ id, ReachableFrom edges root id → id ∈ res.1.map Prod.fst) := by
  intro fuel
  induction fuel with
  | zero =>
    intro queue visited dist log res hres hq hv hmap hnd hcl hroot
    cases queue with
    | cons p rest => simp [bfsAux] at hres
    | nil =>
      simp only [bfsAux, Option.some.injEq] at hres
      subst hres
      have hclosed : ∀ v ∈ visited, ∀ e ∈ edges, e.source = v → e.target ∈ visited := by
        intro v hvm e he hs
        rcases hcl v hvm e he hs with h | h
        · exact h
        · simp at h
      have hrootv : root ∈ visited := by
        rcases hroot with h | h
        · exact h
        · simp at h
      have hreachv : ∀ id, ReachableFrom edges root id → id ∈ visited := by
        intro id hr
        induction hr with
        | refl => exact hrootv
        | step hx he hs ih => exact hclosed _ ih _ he hs
      refine ⟨?_, ?_, ?_⟩
      · intro id d hmem
        exact hv id (by
          have : id ∈ dist.map Prod.fst := List.mem_map.mpr ⟨(id, d), hmem, rfl⟩
          rw [hmap] at this
          exact List.mem_reverse.mp this)
      · rw [hmap]
        exact List.nodup_reverse.mpr hnd
      · intro id hr
        rw [hmap]
        exact List.mem_reverse.mpr (hreachv id hr)
  | succ fuel ih =>
    intro queue visited dist log res hres hq hv hmap hnd hcl hroot
    cases queue with
    | nil =>
      simp only [bfsAux, Option.some.injEq] at hres
      subst hres
      have hclosed : ∀ v ∈ visited, ∀ e ∈ edges, e.source = v → e.target ∈ visited := by
        intro v hvm e he hs
        rcases hcl v hvm e he hs with h | h
        · exact h
        · simp at h
      have hrootv : root ∈ visited := by
        rcases hroot with h | h
        · exact h
        · simp at h
      have hreachv : ∀ id, ReachableFrom edges root id → id ∈ visited := by
        intro id hr
        induction hr with
        | refl => exact hrootv
        | step hx he hs ih2 => exact hclosed _ ih2 _ he hs
      refine ⟨?_, ?_, ?_⟩
      · intro id d hmem
        exact hv id (by
          have : id ∈ dist.map Prod.fst := List.mem_map.mpr ⟨(id, d), hmem, rfl⟩
          rw [hmap] at this
          exact List.mem_reverse.mp this)
      · rw [hmap]
        exact List.nodup_reverse.mpr hnd
      · intro id hr
        rw [hmap]
        exact List.mem_reverse.mpr (hreachv id hr)
    | cons p rest =>
      cases p with
      | mk id d =>
        by_cases hid : id ∈ visited
        · rw [bfsAux, if_pos hid] at hres
          refine ih rest visited dist log res hres
            (fun p hp => hq p (List.mem_cons_of_mem _ hp)) hv hmap hnd ?_ ?_
          · intro v hvm e he hs
            rcases hcl v hvm e he hs with h | h
            · exact Or.inl h
            · rcases List.mem_cons.mp h with h2 | h2
              · exact Or.inl (h2 ▸ hid)
              · exact Or.inr h2
          · rcases hroot with h | h
            · exact Or.inl h
            · rcases List.mem_cons.mp h with h2 | h2
              · exact Or.inl (h2 ▸ hid)
              · exact Or.inr h2
        · rw [bfsAux, if_neg hid] at hres
          have hidr : ReachableFrom edges root id := hq (id, d) (List.mem_cons_self _ _)
          refine ih _ (id :: visited) (dist ++ [(id, d)]) _ res hres ?_ ?_ ?_ ?_ ?_ ?_
          · intro p hp
            rcases List.mem_append.mp hp with h | h
            · exact hq p (List.mem_cons_of_mem _ h)
            · obtain ⟨t, ht, rfl⟩ := List.mem_map.mp h
              obtain ⟨e, he, rfl⟩ := List.mem_map.mp ht
              exact ReachableFrom.step hidr (List.mem_of_mem_filter he)
                (by simpa using (List.of_mem_filter he))
          · intro v hvm
            rcases List.mem_cons.mp hvm with rfl | h
            · exact hidr
            · exact hv v h
          · simp [hmap]
          · exact List.nodup_cons.mpr ⟨hid, hnd⟩
          · intro v hvm e he hs
            rcases List.mem_cons.mp hvm with rfl | h
            · refine Or.inr ?_
              rw [List.map_append]
              refine List.mem_append.mpr (Or.inr ?_)
              rw [List.map_map]
              refine List.mem_map.mpr ⟨e.target, ?_, rfl⟩
              exact List.mem_map.mpr ⟨e, List.mem_filter.mpr ⟨he, by simpa using hs⟩, rfl⟩
            · rcases hcl v h e he hs with h2 | h2
              · exact Or.inl (List.mem_cons_of_mem _ h2)
              · rcases List.mem_cons.mp h2 with h3 | h3
                · exact Or.inl (h3 ▸ List.mem_cons_self _ _)
                · refine Or.inr ?_
                  rw [List.map_append]
                  exact List.mem_append.mpr (Or.inl h3)
          · rcases hroot with h | h
            · exact Or.inl (List.mem_cons_of_mem _ h)
            · rcases List.mem_cons.mp h with h2 | h2
              · exact Or.inl (h2 ▸ List.mem_cons_self _ _)
              · refine Or.inr ?_
                rw [List.map_append]
                exact List.mem_append.mpr (Or.inl h2)

/-- C9 (counterexample): in the two-node cycle `s -> a -> s`, the push log of
the BFS loop records a push of `s` while `s` is already visited — an
already-visited node is re-queued (it is skipped at dequeue, not kept out of
the queue). -/
theorem claim_C9_counterexample :
    bfsAux [⟨"s", "a"⟩, ⟨"a", "s"⟩] 5 [("s", 0)] [] [] [] =
      some ([("s", 0), ("a", 1)], [("a", false), ("s", true)]) ∧
    ([("a", false), ("s", true)] : List (String × Bool)).any (fun e => e.2) = true :=
  ⟨by decide, by decide⟩

/-- C9 (amended): the BFS distance computation is cycle-safe because visited
nodes are skipped when dequeued (not because they are never re-queued): the
loop terminates for every graph, assigns each block at most one distance (the
first visit wins), records only blocks reachable from the root, and records
every reachable block — so unreachable blocks are absent from the mapping. -/
theorem claim_C9 (edges : List EdgeT) (root : String) :
    (∃ fuel res, bfsAux edges fuel [(root, 0)] [] [] [] = some res) ∧
    (∀ fuel dist log, bfsAux edges fuel [(root, 0)] [] [] [] = some (dist, log) →
      (∀ id d, (id, d) ∈ dist → ReachableFrom edges root id) ∧
      (dist.map Prod.fst).Nodup ∧
      (∀ id, ReachableFrom edges root id → id ∈ dist.map Prod.fst)) := by
  constructor
  · refine bfsAux_terminates edges (root :: edges.map (·.target))
      (fun e he => List.mem_cons_of_mem _ (List.mem_map.mpr ⟨e, he, rfl⟩))
      ((root :: edges.map (·.target)).filter (fun x => decide (x ∉ ([] : List String)))).length
      1 [(root, 0)] [] [] [] le_rfl (by simp) ?_
    intro p hp
    rcases List.mem_cons.mp hp with rfl | h
    · exact List.mem_cons_self _ _
    · simp at h
  · intro fuel dist log hres
    exact bfsAux_props edges root fuel [(root, 0)] [] [] [] (dist, log) hres
      (fun p hp => by
        rcases List.mem_cons.mp hp with rfl | h
        · exact ReachableFrom.refl
        · simp at h)
      (fun v hv => by simp at hv) rfl List.nodup_nil
      (fun v hv => by simp at hv) (Or.inr (by simp))

theorem claim_C9_witness :
    ReachableFrom [(⟨"s", "a"⟩ : EdgeT), ⟨"a", "s"⟩] "s" "a" :=
  ((claim_C9 [⟨"s", "a"⟩, ⟨"a", "s"⟩] "s").2 5 [("s", 0), ("a", 1)]
    [("a", false), ("s", true)] (by decide)).1 "a" 1 (by decide)

end Sim
